import Mathlib

/-
Verification of the minimal spanning motion-primitive generator
(`smac_planner/lattice_primitives/lattice_generator.py`) against its
natural-language specification.

The Python source works on floating-point numbers; the embedding models
them as real numbers (`ℝ`).  Python integers are modelled as `ℤ`/`ℕ`.
Python lists are Lean `List`s; `+=` accumulation in loop order is list
concatenation in the same order; `dict`/`defaultdict` objects are
association lists that preserve insertion order of keys, exactly like
Python dicts.
-/

namespace LatticeGen

open Real

/-- Truncation toward zero, the semantics of Python's `int(...)` applied to a
float. -/
noncomputable def pyInt (x : ℝ) : ℤ := if 0 ≤ x then ⌊x⌋ else ⌈x⌉

/-- Round half to even, the semantics of Python's builtin `round` and of
`np.round` at integer precision. -/
noncomputable def pyRound (x : ℝ) : ℤ :=
  if Int.fract x = 1/2 then (if Even ⌊x⌋ then ⌊x⌋ else ⌊x⌋ + 1) else round x

/-- `np.round(x, 5)`: round half to even at 5 decimal digits. -/
noncomputable def pyRound5 (x : ℝ) : ℝ := (pyRound (x * 100000) : ℝ) / 100000

/-- `np.deg2rad`. -/
noncomputable def deg2rad (x : ℝ) : ℝ := x * π / 180

/-- `np.rad2deg`. -/
noncomputable def rad2deg (x : ℝ) : ℝ := x * 180 / π

/-- `np.arctan2 y x` (a standard math-library function): the angle in
`(-π, π]` of the point `(x, y)`, with `arctan2 0 0 = 0`. -/
noncomputable def atan2 (y x : ℝ) : ℝ :=
  if 0 < x then arctan (y / x)
  else if x < 0 then (if 0 ≤ y then arctan (y / x) + π else arctan (y / x) - π)
  else (if 0 < y then π / 2 else if y < 0 then -(π / 2) else 0)

/-- Dot product of two points in the plane (`np.inner` / `np.dot` on
2-vectors). -/
def dot2 (a b : ℝ × ℝ) : ℝ := a.1 * b.1 + a.2 * b.2

/-- Euclidean norm of a 2-vector (`np.linalg.norm`). -/
noncomputable def norm2 (a : ℝ × ℝ) : ℝ := Real.sqrt (dot2 a a)

/-- Pointwise difference of 2-vectors. -/
def sub2 (a b : ℝ × ℝ) : ℝ × ℝ := (a.1 - b.1, a.2 - b.2)

/-- Pointwise `p + t * (q - p)` building the projected point. -/
def lerp2 (p d : ℝ × ℝ) (t : ℝ) : ℝ × ℝ := (p.1 + t * d.1, p.2 + t * d.2)

/-- `LatticeGenerator.angle_difference`: absolute difference, folded over π
to the shorter arc. -/
noncomputable def angle_difference (angle_1 angle_2 : ℝ) : ℝ :=
  let difference := |angle_1 - angle_2|
  if difference > π then 2 * π - difference else difference

/-- `LatticeGenerator.point_to_line_distance`: minimum distance from `q` to
the segment `p1p2`, by clamped projection. -/
noncomputable def point_to_line_distance (p1 p2 q : ℝ × ℝ) : ℝ :=
  let l2 := dot2 (sub2 p1 p2) (sub2 p1 p2)
  if l2 = 0 then norm2 (sub2 p1 q)
  else
    let t := max 0 (min 1 (dot2 (sub2 q p1) (sub2 p2 p1) / l2))
    norm2 (sub2 q (lerp2 p1 (sub2 p2 p1) t))

/-- Modelled from the spec: the curve generator's `Trajectory.parameters`
(`trajectory.py` is not under `src/`): the turning radius used and the two
straight-segment lengths (start-to-arc and arc-to-end). -/
structure TrajectoryParameters where
  radius : ℝ
  start_to_arc_distance : ℝ
  arc_to_end_distance : ℝ

/-- Modelled from the spec: the curve generator's sampled path
(`trajectory.py` is not under `src/`): parallel coordinate/yaw sequences
of the sampled poses from start to end. -/
structure TrajectoryPath where
  xs : List ℝ
  ys : List ℝ
  yaws : List ℝ

/-- Modelled from the spec: a trajectory produced by the external curve
generator (`trajectory.py` is not under `src/`). -/
structure Trajectory where
  parameters : TrajectoryParameters
  path : TrajectoryPath

/-- Modelled from the spec: the curve-generator collaborator
(`trajectory_generator.py` is not under `src/`):
`generateTrajectory(targetPoint, startHeadingDeg, endHeadingDeg,
samplingStep)` returns a trajectory or `none` when the geometry is
infeasible. -/
abbrev CurveGen : Type := (ℝ × ℝ) → ℝ → ℝ → ℝ → Option Trajectory

/-- Modelled from the spec: the motion-model enumeration
(`motion_model.py` is not under `src/`): ACKERMANN, DIFF (differential)
and OMNI (omnidirectional); `OTHER` stands for any remaining unknown
value, which the spec's error taxonomy treats as a programming error. -/
inductive MotionModel where
  | ACKERMANN : MotionModel
  | DIFF : MotionModel
  | OMNI : MotionModel
  | OTHER : MotionModel
deriving DecidableEq

/-- The configuration consumed by `LatticeGenerator.__init__`. -/
structure Config where
  gridSeparation : ℝ
  turningRadius : ℝ
  maxLength : ℝ
  numberOfHeadings : ℕ
  motionModel : MotionModel

/-- `self.max_level = round(config["maxLength"] / self.grid_separation)`. -/
noncomputable def max_level (cfg : Config) : ℤ :=
  pyRound (cfg.maxLength / cfg.gridSeparation)

/-- `LatticeGenerator.compute_min_trajectory_length`: arc length of a circle
of the turning radius through `360 / numberOfHeadings` degrees. -/
noncomputable def compute_min_trajectory_length (cfg : Config) : ℝ :=
  2 * π * cfg.turningRadius * (1 / (cfg.numberOfHeadings : ℝ))

/-- The five-fold `zip(xs[:-1], ys[:-1], xs[1:], ys[1:], yaws[:-1])` over a
trajectory path: consecutive sampled segments with the yaw of each
segment's first point. -/
def pathSegments (p : TrajectoryPath) : List (ℝ × ℝ × ℝ × ℝ × ℝ) :=
  p.xs.dropLast.zip (p.ys.dropLast.zip ((p.xs.drop 1).zip ((p.ys.drop 1).zip p.yaws.dropLast)))

open Classical in
/-- `LatticeGenerator.is_minimal_path`: scan every consecutive sampled
segment of the candidate path against every previously accepted end pose;
return `false` (reject) as soon as one pair is simultaneously below the
distance threshold `0.5 * gridSeparation` and the rotation threshold
`0.5 * deg2rad(360 / numberOfHeadings)`; return `true` otherwise. -/
noncomputable def is_minimal_path (cfg : Config) (trajectory_path : TrajectoryPath)
    (minimal_spanning_trajectories : List (ℝ × ℝ × ℝ)) : Bool :=
  let distance_threshold := 0.5 * cfg.gridSeparation
  let rotation_threshold := 0.5 * deg2rad (360 / (cfg.numberOfHeadings : ℝ))
  (pathSegments trajectory_path).all fun s =>
    minimal_spanning_trajectories.all fun prior_end_point =>
      ! decide
        (point_to_line_distance (s.1, s.2.1) (s.2.2.1, s.2.2.2.1)
            (prior_end_point.1, prior_end_point.2.1) < distance_threshold ∧
          angle_difference s.2.2.2.2 prior_end_point.2.2 < rotation_threshold)

/-- `max_val = int((((self.number_of_headings + 4)/4) - 1) / 2)`:
Python float division followed by truncation toward zero (nonnegative
here, so the `toNat` is lossless). -/
noncomputable def max_val (number_of_headings : ℕ) : ℕ :=
  (pyInt (((((number_of_headings : ℝ) + 4) / 4) - 1) / 2)).toNat

/-- Python's `range(-max_val, max_val + 1)` as a list of integers. -/
def iRange (m : ℕ) : List ℤ :=
  (List.range (2 * m + 1)).map fun (k : ℕ) => ((k : ℤ) - (m : ℤ))

/-- The `outer_edge_x` list built by `get_heading_discretization`'s loop:
per iteration `i`, `outer_edge_x += [i, i]` and, when `i` is not an
extreme value, additionally `outer_edge_x += [-max_val, max_val]`;
`+=` accumulation in loop order is list concatenation. -/
def outer_edge_x (m : ℕ) : List ℤ :=
  (iRange m).flatMap fun i =>
    [i, i] ++ (if i ≠ (m : ℤ) ∧ i ≠ -(m : ℤ) then [-(m : ℤ), (m : ℤ)] else [])

/-- The matching `outer_edge_y` list: per iteration `i`,
`outer_edge_y += [-max_val, max_val]` and, when `i` is not an extreme
value, additionally `outer_edge_y += [i, i]`. -/
def outer_edge_y (m : ℕ) : List ℤ :=
  (iRange m).flatMap fun i =>
    [-(m : ℤ), (m : ℤ)] ++ (if i ≠ (m : ℤ) ∧ i ≠ -(m : ℤ) then [i, i] else [])

/-- The zipped `(i, j)` compass cells that `get_heading_discretization`
maps over. -/
def compassCells (m : ℕ) : List (ℤ × ℤ) := (outer_edge_x m).zip (outer_edge_y m)

/-- The compass cells contributed by one loop iteration `i` (the zip of the
per-iteration blocks of the two edge lists). -/
def cellBlock (m : ℕ) (i : ℤ) : List (ℤ × ℤ) :=
  [(i, -(m : ℤ)), (i, (m : ℤ))] ++
    (if i ≠ (m : ℤ) ∧ i ≠ -(m : ℤ) then [(-(m : ℤ), i), ((m : ℤ), i)] else [])

/-- `LatticeGenerator.get_heading_discretization`: the directions (in
degrees, via `arctan2`) from the origin to the boundary cells of the
compass square. -/
noncomputable def get_heading_discretization (number_of_headings : ℕ) : List ℝ :=
  (compassCells (max_val number_of_headings)).map
    fun c => rad2deg (atan2 (c.2 : ℝ) (c.1 : ℝ))

/-- `LatticeGenerator.get_coords_at_level`: the candidate endpoints on the
Chebyshev ring of the given level. -/
noncomputable def get_coords_at_level (grid_separation : ℝ) (level : ℤ) : List (ℝ × ℝ) :=
  ((List.range level.toNat).flatMap fun i =>
    [(grid_separation * (level : ℝ), grid_separation * (i : ℝ)),
     (grid_separation * (i : ℝ), grid_separation * (level : ℝ))]) ++
  [(grid_separation * (level : ℝ), grid_separation * (level : ℝ))]

open Classical in
/-- `sorted(list(filter(lambda x: 0 <= x and x < 90, single_quadrant_headings)))`:
the start headings of the single-quadrant search. -/
noncomputable def initial_headings (cfg : Config) : List ℝ :=
  List.insertionSort (fun a b => a ≤ b)
    ((get_heading_discretization cfg.numberOfHeadings).filter fun x => decide (0 ≤ x ∧ x < 90))

/-- The sort key `lambda x: (abs(x - start_heading), -x)` of the target
headings, as a total preorder (lexicographic on the key tuple). -/
def targetKeyLe (start_heading x y : ℝ) : Prop :=
  |x - start_heading| < |y - start_heading| ∨
    (|x - start_heading| = |y - start_heading| ∧ -x ≤ -y)

open Classical in
/-- The target headings of a start heading: sorted radially by the key
above, then filtered to those within 90 degrees. -/
noncomputable def target_headings (cfg : Config) (start_heading : ℝ) : List ℝ :=
  (List.insertionSort (targetKeyLe start_heading)
      (get_heading_discretization cfg.numberOfHeadings)).filter
    fun x => decide (|start_heading - x| ≤ 90)

/-- `start_level = int(np.floor(min_trajectory_length / self.grid_separation))`. -/
noncomputable def start_level (cfg : Config) : ℤ :=
  ⌊compute_min_trajectory_length cfg / cfg.gridSeparation⌋

/-- The levels visited by the `while current_level <= self.max_level` loop,
starting at `start_level`. -/
noncomputable def levelsList (cfg : Config) : List ℤ :=
  (List.range (max_level cfg + 1 - start_level cfg).toNat).map
    fun j => start_level cfg + (j : ℤ)

open Classical in
/-- One candidate `(target_point, target_heading)` of the search: request a
trajectory at fine resolution `0.1 * gridSeparation`; when one is returned
and passes the minimality test against the end poses accepted so far,
append its end pose (with the heading in radians) and record the accepted
`(target_point, target_heading)` pair. -/
noncomputable def search_step (cfg : Config) (gen : CurveGen) (start_heading : ℝ)
    (acc : List (ℝ × ℝ × ℝ) × List ((ℝ × ℝ) × ℝ)) (target_point : ℝ × ℝ)
    (target_heading : ℝ) : List (ℝ × ℝ × ℝ) × List ((ℝ × ℝ) × ℝ) :=
  match gen target_point start_heading target_heading (0.1 * cfg.gridSeparation) with
  | none => acc
  | some trajectory =>
      if is_minimal_path cfg trajectory.path acc.1 then
        (acc.1 ++ [(target_point.1, target_point.2, deg2rad target_heading)],
         acc.2 ++ [(target_point, target_heading)])
      else acc

/-- One level of the search: all candidate endpoints of the level crossed
with all target headings, in loop order. -/
noncomputable def search_level (cfg : Config) (gen : CurveGen) (start_heading : ℝ)
    (targets : List ℝ) (acc : List (ℝ × ℝ × ℝ) × List ((ℝ × ℝ) × ℝ)) (level : ℤ) :
    List (ℝ × ℝ × ℝ) × List ((ℝ × ℝ) × ℝ) :=
  (get_coords_at_level cfg.gridSeparation level).foldl
    (fun a target_point =>
      targets.foldl (fun a2 target_heading =>
        search_step cfg gen start_heading a2 target_point target_heading) a)
    acc

/-- The whole per-start-heading search: iterate the levels, starting from
empty accumulators, and return the accepted `(end_point, end_angle)`
pairs in acceptance order. -/
noncomputable def search_start (cfg : Config) (gen : CurveGen) (start_heading : ℝ) :
    List ((ℝ × ℝ) × ℝ) :=
  ((levelsList cfg).foldl
      (search_level cfg gen start_heading (target_headings cfg start_heading))
      ([], [])).2

/-- `defaultdict(list)` modelled as an insertion-ordered association list;
`d[k].append(v)` appends to the key's list, creating the key at the end
when absent. -/
noncomputable def appendAt {β : Type} : List (ℝ × List β) → ℝ → β → List (ℝ × List β)
  | [], k, v => [(k, [v])]
  | (k0, l) :: t, k, v =>
      if k0 = k then (k0, l ++ [v]) :: t else (k0, l) :: appendAt t k v

/-- Dictionary read with the `defaultdict` default: the list at a key, or
`[]` when absent. -/
noncomputable def lookupD {β : Type} : List (ℝ × List β) → ℝ → List β
  | [], _ => []
  | (k0, l) :: t, k => if k0 = k then l else lookupD t k

/-- Dictionary assignment `d[k] = v`: overwrite in place when the key
exists, append the key at the end otherwise. -/
noncomputable def setKey {β : Type} : List (ℝ × List β) → ℝ → List β → List (ℝ × List β)
  | [], k, v => [(k, v)]
  | (k0, l) :: t, k, v =>
      if k0 = k then (k0, v) :: t else (k0, l) :: setKey t k v

/-- Reading `d[k]` on a `defaultdict` inserts the key with `[]` when it is
absent (the effect of `single_quadrant_minimal_set[0.0]` in the source). -/
noncomputable def ensureKey {β : Type} (s : List (ℝ × List β)) (k : ℝ) : List (ℝ × List β) :=
  if k ∈ s.map Prod.fst then s else s ++ [(k, [])]

/-- The keys of an association list, in insertion order. -/
def keysOf {β : Type} (s : List (ℝ × List β)) : List ℝ := s.map Prod.fst

/-- The single-quadrant spanning set accumulated by
`generate_minimal_spanning_set`: for each start heading in order, the
accepted pairs are appended one at a time under that key (the key is
created at its first accepted trajectory, as with a `defaultdict`). -/
noncomputable def single_quadrant_set (cfg : Config) (gen : CurveGen) :
    List (ℝ × List ((ℝ × ℝ) × ℝ)) :=
  (initial_headings cfg).foldl
    (fun s start_heading =>
      (search_start cfg gen start_heading).foldl
        (fun s2 r => appendAt s2 start_heading r) s)
    []

/-- A primitive record of the final output: the tuple
`(start_angle, end_angle, radius, trajectory_length, arc_length,
straight_length, poses)` of the source. -/
structure Prim where
  start_angle : ℝ
  end_angle : ℝ
  radius : ℝ
  trajectory_length : ℝ
  arc_length : ℝ
  straight_length : ℝ
  poses : List (ℝ × ℝ × ℝ)

/-- The per-segment yaws recomputed from consecutive point deltas:
`[np.arctan2(yf - yi, xf - xi) for xi, yi, xf, yf in
zip(xs[:-1], ys[:-1], xs[1:], ys[1:])]`. -/
noncomputable def delta_yaws (xs ys : List ℝ) : List ℝ :=
  (xs.dropLast.zip (ys.dropLast.zip ((xs.drop 1).zip (ys.drop 1)))).map
    fun c => atan2 (c.2.2.2 - c.2.1) (c.2.2.1 - c.1)

open Classical in
/-- The 2-4 reflected primitive records that
`create_complete_minimal_spanning_set` produces and appends (in order) for
one single-quadrant entry `(start_angle, end_point, end_angle)`; `none`
models the Python `AttributeError` crash when the coarse re-request of the
trajectory fails. -/
noncomputable def quad_records (cfg : Config) (gen : CurveGen) (start_angle : ℝ)
    (end_point : ℝ × ℝ) (end_angle : ℝ) : Option (List Prim) :=
  match gen end_point start_angle end_angle cfg.gridSeparation with
  | none => none
  | some trajectory =>
    let xs0 := trajectory.path.xs
    let ys0 := trajectory.path.ys
    let flipped_xs0 := xs0.map fun x => -x
    let flipped_ys0 := ys0.map fun y => -y
    let yaws_quad1 := (delta_yaws xs0 ys0 ++ [deg2rad end_angle]).map (· + 0)
    let yaws_quad2 := (delta_yaws flipped_xs0 ys0 ++ [π - deg2rad end_angle]).map (· + 0)
    let yaws_quad3 := (delta_yaws flipped_xs0 flipped_ys0 ++ [-π + deg2rad end_angle]).map (· + 0)
    let yaws_quad4 := (delta_yaws xs0 flipped_ys0 ++ [-(deg2rad end_angle)]).map (· + 0)
    let xs := (xs0.map pyRound5).map (· + 0)
    let ys := (ys0.map pyRound5).map (· + 0)
    let flipped_xs := (flipped_xs0.map pyRound5).map (· + 0)
    let flipped_ys := (flipped_ys0.map pyRound5).map (· + 0)
    let arc_length := 2 * π * trajectory.parameters.radius * |start_angle - end_angle| / 360
    let straight_length :=
      trajectory.parameters.start_to_arc_distance + trajectory.parameters.arc_to_end_distance
    let trajectory_length := arc_length + trajectory.parameters.start_to_arc_distance +
      trajectory.parameters.arc_to_end_distance
    some
      (if start_angle = 0 ∧ end_angle = 0 then
        [⟨0, 0, trajectory.parameters.radius, trajectory_length, arc_length, straight_length,
            xs.zip (ys.zip yaws_quad1)⟩,
         ⟨-180, -180, trajectory.parameters.radius, trajectory_length, arc_length,
            straight_length, flipped_xs.zip (ys.zip yaws_quad2)⟩]
      else if start_angle = 90 ∧ end_angle = 90 then
        [⟨start_angle, end_angle, trajectory.parameters.radius, trajectory_length, arc_length,
            straight_length, xs.zip (ys.zip yaws_quad1)⟩,
         ⟨-start_angle, -end_angle, trajectory.parameters.radius, trajectory_length, arc_length,
            straight_length, xs.zip (flipped_ys.zip yaws_quad4)⟩]
      else if start_angle = 0 then
        [⟨start_angle, end_angle, trajectory.parameters.radius, trajectory_length, arc_length,
            straight_length, xs.zip (ys.zip yaws_quad1)⟩,
         ⟨-180, 180 - end_angle, trajectory.parameters.radius, trajectory_length, arc_length,
            straight_length, flipped_xs.zip (ys.zip yaws_quad2)⟩,
         ⟨-180, end_angle - 180, trajectory.parameters.radius, trajectory_length, arc_length,
            straight_length, flipped_xs.zip (flipped_ys.zip yaws_quad3)⟩,
         ⟨start_angle, -end_angle, trajectory.parameters.radius, trajectory_length, arc_length,
            straight_length, xs.zip (flipped_ys.zip yaws_quad4)⟩]
      else if end_angle = 0 then
        [⟨start_angle, end_angle, trajectory.parameters.radius, trajectory_length, arc_length,
            straight_length, xs.zip (ys.zip yaws_quad1)⟩,
         ⟨180 - start_angle, -180, trajectory.parameters.radius, trajectory_length, arc_length,
            straight_length, flipped_xs.zip (ys.zip yaws_quad2)⟩,
         ⟨start_angle - 180, -180, trajectory.parameters.radius, trajectory_length, arc_length,
            straight_length, flipped_xs.zip (flipped_ys.zip yaws_quad3)⟩,
         ⟨-start_angle, end_angle, trajectory.parameters.radius, trajectory_length, arc_length,
            straight_length, xs.zip (flipped_ys.zip yaws_quad4)⟩]
      else
        [⟨start_angle, end_angle, trajectory.parameters.radius, trajectory_length, arc_length,
            straight_length, xs.zip (ys.zip yaws_quad1)⟩,
         ⟨180 - start_angle, 180 - end_angle, trajectory.parameters.radius, trajectory_length,
            arc_length, straight_length, flipped_xs.zip (ys.zip yaws_quad2)⟩,
         ⟨start_angle - 180, end_angle - 180, trajectory.parameters.radius, trajectory_length,
            arc_length, straight_length, flipped_xs.zip (flipped_ys.zip yaws_quad3)⟩,
         ⟨-start_angle, -end_angle, trajectory.parameters.radius, trajectory_length, arc_length,
            straight_length, xs.zip (flipped_ys.zip yaws_quad4)⟩])

/-- Append one entry's reflected records to the accumulating output, each
keyed by its own start angle (`all_trajectories[quadrant_k[0]].append`). -/
noncomputable def addQuadRecords (cfg : Config) (gen : CurveGen) (start_angle : ℝ)
    (s : List (ℝ × List Prim)) (r : (ℝ × ℝ) × ℝ) : Option (List (ℝ × List Prim)) :=
  (quad_records cfg gen start_angle r.1 r.2).map fun qs =>
    qs.foldl (fun s2 q => appendAt s2 q.start_angle q) s

/-- `LatticeGenerator.create_complete_minimal_spanning_set`: copy the
0-degree trajectories to 90 degrees (transposed), then re-request every
trajectory at coarse resolution and reflect it into all four quadrants.
`none` models the uncaught Python crash when a coarse re-request fails. -/
noncomputable def create_complete_minimal_spanning_set (cfg : Config) (gen : CurveGen)
    (single_quadrant_minimal_set : List (ℝ × List ((ℝ × ℝ) × ℝ))) :
    Option (List (ℝ × List Prim)) :=
  let s0 := ensureKey single_quadrant_minimal_set 0
  let end_points_for_90 := (lookupD s0 0).map fun r => ((r.1.2, r.1.1), 90 - r.2)
  let s1 := setKey s0 90 end_points_for_90
  s1.foldlM
    (fun acc entry =>
      entry.2.foldlM (fun acc2 r => addQuadRecords cfg gen entry.1 acc2 r) acc)
    ([] : List (ℝ × List Prim))

/-- `LatticeGenerator.generate_minimal_spanning_set`: single-quadrant
search followed by the symmetry expansion. -/
noncomputable def generate_minimal_spanning_set (cfg : Config) (gen : CurveGen) :
    Option (List (ℝ × List Prim)) :=
  create_complete_minimal_spanning_set cfg gen (single_quadrant_set cfg gen)

/-- Python `<` on pose triples (tuples compare lexicographically). -/
def pyTripleLt (a b : ℝ × ℝ × ℝ) : Prop :=
  a.1 < b.1 ∨ (a.1 = b.1 ∧ (a.2.1 < b.2.1 ∨ (a.2.1 = b.2.1 ∧ a.2.2 < b.2.2)))

/-- Python `<` on pose lists (lists compare lexicographically). -/
def pyPoseListLt : List (ℝ × ℝ × ℝ) → List (ℝ × ℝ × ℝ) → Prop
  | [], [] => False
  | [], _ :: _ => True
  | _ :: _, [] => False
  | a :: t1, b :: t2 => pyTripleLt a b ∨ (a = b ∧ pyPoseListLt t1 t2)

/-- Python `<` on primitive record tuples: lexicographic over
`(start_angle, end_angle, radius, trajectory_length, arc_length,
straight_length, poses)`. -/
def pyPrimLt (a b : Prim) : Prop :=
  a.start_angle < b.start_angle ∨ (a.start_angle = b.start_angle ∧
  (a.end_angle < b.end_angle ∨ (a.end_angle = b.end_angle ∧
  (a.radius < b.radius ∨ (a.radius = b.radius ∧
  (a.trajectory_length < b.trajectory_length ∨ (a.trajectory_length = b.trajectory_length ∧
  (a.arc_length < b.arc_length ∨ (a.arc_length = b.arc_length ∧
  (a.straight_length < b.straight_length ∨ (a.straight_length = b.straight_length ∧
  pyPoseListLt a.poses b.poses)))))))))))

/-- Python `<` on lists of primitive records. -/
def pyPrimListLt : List Prim → List Prim → Prop
  | [], [] => False
  | [], _ :: _ => True
  | _ :: _, [] => False
  | a :: t1, b :: t2 => pyPrimLt a b ∨ (a = b ∧ pyPrimListLt t1 t2)

/-- The non-strict comparison used to model Python's stable
`sorted(keys, key=spanning_set.get)`. -/
def pyPrimListLe (u v : List Prim) : Prop := pyPrimListLt u v ∨ u = v

/-- An in-place-turn primitive
`(start, target, 0, 0, 0, 0, [[0, 0, start], [0, 0, target]])`. -/
def turnPrim (start_angle target_angle : ℝ) : Prim :=
  ⟨start_angle, target_angle, 0, 0, 0, 0, [(0, 0, start_angle), (0, 0, target_angle)]⟩

open Classical in
/-- `LatticeGenerator.add_in_place_turns`: sort the keys by their values
(`key=spanning_set.get`), then for each key append a turn to the previous
and a turn to the next angle in that order, cyclically. -/
noncomputable def add_in_place_turns (spanning_set : List (ℝ × List Prim)) :
    List (ℝ × List Prim) :=
  let all_angles := List.insertionSort
    (fun a b => pyPrimListLe (lookupD spanning_set a) (lookupD spanning_set b))
    (keysOf spanning_set)
  all_angles.enum.foldl
    (fun acc ik =>
      let idx := ik.1
      let start_angle := ik.2
      let prev_angle := all_angles.getD (if idx = 0 then all_angles.length - 1 else idx - 1) 0
      let next_angle := all_angles.getD (if idx + 1 < all_angles.length then idx + 1 else 0) 0
      appendAt (appendAt acc start_angle (turnPrim start_angle prev_angle)) start_angle
        (turnPrim start_angle next_angle))
    spanning_set

/-- `np.linspace(start, stop, num)` with the default inclusive endpoint. -/
noncomputable def linspace (start stop : ℝ) (num : ℕ) : List ℝ :=
  if num = 0 then []
  else if num = 1 then [start]
  else (List.range num).map fun k => start + (stop - start) * (k : ℝ) / ((num : ℝ) - 1)

/-- The left lateral ("sidestep") motion appended by
`add_horizontal_motions` for one start angle: length
`min_trajectory_length` at +90 degrees from the heading, constant yaw,
`round(min_trajectory_length / grid_separation)` sampled poses. -/
noncomputable def horizontal_left (cfg : Config) (start_angle : ℝ) : Prim :=
  let min_trajectory_length := compute_min_trajectory_length cfg
  let steps := (pyRound (min_trajectory_length / cfg.gridSeparation)).toNat
  let xs0 := linspace 0 (min_trajectory_length * Real.cos (deg2rad (start_angle + 90))) steps
  let ys0 := linspace 0 (min_trajectory_length * Real.sin (deg2rad (start_angle + 90))) steps
  let xs := (xs0.map pyRound5).map (· + 0)
  let ys := (ys0.map pyRound5).map (· + 0)
  let yaws := (List.replicate steps (deg2rad start_angle)).map (· + 0)
  ⟨start_angle, start_angle, 0, min_trajectory_length, 0, min_trajectory_length,
    xs.zip (ys.zip yaws)⟩

/-- The right lateral motion appended by `add_horizontal_motions` for one
start angle: the left motion's coordinates negated (before rounding). -/
noncomputable def horizontal_right (cfg : Config) (start_angle : ℝ) : Prim :=
  let min_trajectory_length := compute_min_trajectory_length cfg
  let steps := (pyRound (min_trajectory_length / cfg.gridSeparation)).toNat
  let xs0 := linspace 0 (min_trajectory_length * Real.cos (deg2rad (start_angle + 90))) steps
  let ys0 := linspace 0 (min_trajectory_length * Real.sin (deg2rad (start_angle + 90))) steps
  let flipped_xs0 := xs0.map fun x => -x
  let flipped_ys0 := ys0.map fun y => -y
  let yaws := (List.replicate steps (deg2rad start_angle)).map (· + 0)
  let flipped_xs := (flipped_xs0.map pyRound5).map (· + 0)
  let flipped_ys := (flipped_ys0.map pyRound5).map (· + 0)
  ⟨start_angle, start_angle, 0, min_trajectory_length, 0, min_trajectory_length,
    flipped_xs.zip (flipped_ys.zip yaws)⟩

/-- `LatticeGenerator.add_horizontal_motions`: for every key, append a left
and a right lateral motion of length `min_trajectory_length`, sampled into
`round(min_trajectory_length / grid_separation)` poses of constant yaw. -/
noncomputable def add_horizontal_motions (cfg : Config) (spanning_set : List (ℝ × List Prim)) :
    List (ℝ × List Prim) :=
  (keysOf spanning_set).foldl
    (fun acc start_angle =>
      appendAt (appendAt acc start_angle (horizontal_left cfg start_angle)) start_angle
        (horizontal_right cfg start_angle))
    spanning_set

/-- `LatticeGenerator.handle_motion_model`: dispatch on the motion model;
an unknown model raises `NotImplementedError`, modelled as `Except.error`. -/
noncomputable def handle_motion_model (cfg : Config) (spanning_set : List (ℝ × List Prim)) :
    Except Unit (List (ℝ × List Prim)) :=
  match cfg.motionModel with
  | MotionModel.ACKERMANN => Except.ok spanning_set
  | MotionModel.DIFF => Except.ok (add_in_place_turns spanning_set)
  | MotionModel.OMNI =>
      Except.ok (add_horizontal_motions cfg (add_in_place_turns spanning_set))
  | MotionModel.OTHER => Except.error ()

/-- `LatticeGenerator.run`: generate the complete spanning set and apply
the motion-model augmentation; `none` models an uncaught crash. -/
noncomputable def runGenerator (cfg : Config) (gen : CurveGen) :
    Option (List (ℝ × List Prim)) :=
  (generate_minimal_spanning_set cfg gen).bind fun s => (handle_motion_model cfg s).toOption

/-- All primitive records of an (optional) output mapping. -/
def allPrims : Option (List (ℝ × List Prim)) → List Prim
  | none => []
  | some s => (s.map Prod.snd).flatten

/-- All start-heading keys of an (optional) output mapping. -/
def keysO : Option (List (ℝ × List Prim)) → List ℝ
  | none => []
  | some s => s.map Prod.fst

/-- Every heading-valued datum of an output: the keys and each record's
start and end heading. -/
def headingVals (o : Option (List (ℝ × List Prim))) : List ℝ :=
  keysO o ++ (allPrims o).flatMap fun p => [p.start_angle, p.end_angle]

/-- C3's claim, as stated: every record's total length is arc length plus
straight length, and its arc length is `2π·radius·|Δheading|/360` with the
plain absolute difference of the record's own start and end headings. -/
noncomputable def c3Claim (o : Option (List (ℝ × List Prim))) : Prop :=
  ∀ p ∈ allPrims o,
    p.trajectory_length = p.arc_length + p.straight_length ∧
    p.arc_length = 2 * π * p.radius * |p.start_angle - p.end_angle| / 360

/-- C6's claim, as stated: every heading value of the output lies in
`(-180, 180]`, and `+180` and `-180` never both occur. (Negative zero is
not representable in the real-number model, so that clause is
vacuous here.) -/
def c6Claim (o : Option (List (ℝ × List Prim))) : Prop :=
  (∀ v ∈ headingVals o, -180 < v ∧ v ≤ 180) ∧
  ¬ ((180 : ℝ) ∈ headingVals o ∧ (-180 : ℝ) ∈ headingVals o)

/-- The shortest-arc angular distance in degrees between two headings, for
inputs whose plain difference does not exceed 540 degrees (spec-side
definition used by the amended C3). -/
noncomputable def angDistDeg (a b : ℝ) : ℝ :=
  if |a - b| ≤ 180 then |a - b| else abs (360 - |a - b|)

/-- Normalization of a degree value into `(-180, 180]` for inputs within
`(-540, 540]` (spec-side definition used by the amended C4). -/
noncomputable def normDeg (θ : ℝ) : ℝ :=
  if 180 < θ then θ - 360 else if θ ≤ -180 then θ + 360 else θ

/-- The spanning set's keys in ascending numeric order (the ordering the
spec describes for the in-place-turn neighbors). -/
noncomputable def sortedKeys (s : List (ℝ × List Prim)) : List ℝ :=
  List.insertionSort (fun a b => a ≤ b) (keysOf s)

/-- A simple concrete primitive whose start angle is its key, used for
witness spanning sets. -/
def mkP (k : ℝ) : Prim := ⟨k, k, 1, 1, 1, 0, []⟩

/-- A concrete two-key spanning set for witnesses. -/
def sW : List (ℝ × List Prim) := [(0, [mkP 0]), (90, [mkP 90])]

/-- A trivial trajectory used for concrete instantiations: radius 1, no
straight segments, and an empty sampled path. -/
def t0 : Trajectory := ⟨⟨1, 0, 0⟩, ⟨[], [], []⟩⟩

/-- All primitive records stored in a spanning-set mapping. -/
def vals (s : List (ℝ × List Prim)) : List Prim := (s.map Prod.snd).flatten

/-- The amended C3 property: total length decomposes as arc plus straight,
and the arc length is `2π·radius·d/360` where `d` is the shortest-arc
angular distance (in degrees) between the record's start and end heading. -/
noncomputable def arcConsistent (p : Prim) : Prop :=
  p.trajectory_length = p.arc_length + p.straight_length ∧
  p.arc_length = 2 * π * p.radius * angDistDeg p.start_angle p.end_angle / 360

/-- A concrete configuration for the C3 instantiation: grid separation 1,
turning radius 1, max length 1/4, 8 headings, ACKERMANN; with it the
search visits exactly level 0 (the origin). -/
noncomputable def cfgC3 : Config := ⟨1, 1, 1 / 4, 8, MotionModel.ACKERMANN⟩

open Classical in
/-- A curve generator for the C3 instantiation: succeeds on every coarse
re-request (sampling step 1) and, during the fine search, only for start
heading 0 with end heading 45. -/
noncomputable def gen45 : CurveGen := fun _ s e st =>
  if st = 1 then some t0 else if s = 0 ∧ e = 45 then some t0 else none

/-- The quadrant-2 record that `create_complete_minimal_spanning_set`
produces for the single-quadrant record `(0, (0, 0), 45)` with the
generator `gen45`: start heading -180, end heading `180 - 45`, while the
stored arc length is computed from `|0 - 45|`. -/
noncomputable def badPrim : Prim :=
  ⟨-180, 180 - 45, t0.parameters.radius,
    2 * π * t0.parameters.radius * |(0 : ℝ) - 45| / 360 +
      t0.parameters.start_to_arc_distance + t0.parameters.arc_to_end_distance,
    2 * π * t0.parameters.radius * |(0 : ℝ) - 45| / 360,
    t0.parameters.start_to_arc_distance + t0.parameters.arc_to_end_distance,
    []⟩

/-- A concrete configuration used for witnesses: grid separation 1,
turning radius 2, max length 1, 8 headings, ACKERMANN. -/
def cfgA : Config := ⟨1, 2, 1, 8, MotionModel.ACKERMANN⟩

/-- The same concrete configuration with the DIFFERENTIAL motion model. -/
def cfgD : Config := ⟨1, 2, 1, 8, MotionModel.DIFF⟩

/-- The same concrete configuration with the OMNIDIRECTIONAL motion model. -/
def cfgO : Config := ⟨1, 2, 1, 8, MotionModel.OMNI⟩

/-- A curve generator that always fails. -/
def genNone : CurveGen := fun _ _ _ _ => none

/-- A curve generator that always returns the trivial trajectory. -/
def genT0 : CurveGen := fun _ _ _ _ => some t0

open Classical in
/-- A curve generator for the C6 instantiation: succeeds on every coarse
re-request (sampling step 1) and, during the fine search, only for start
heading 0 with the negative end heading -45 (which the target filter
`abs(start_heading - x) <= 90` admits). -/
noncomputable def genNeg45 : CurveGen := fun _ s e st =>
  if st = 1 then some t0 else if s = 0 ∧ e = -45 then some t0 else none

/-- Membership in the zipped segment list corresponds exactly to an index
`i` with `i + 1` inside all three pose arrays, the segment being the pair
of consecutive sampled points with the yaw of the first. -/
theorem mem_pathSegments_iff (p : TrajectoryPath) (s : ℝ × ℝ × ℝ × ℝ × ℝ) :
    s ∈ pathSegments p ↔
      ∃ i, (i + 1 < p.xs.length ∧ i + 1 < p.ys.length ∧ i + 1 < p.yaws.length) ∧
        s = (p.xs.getD i 0, p.ys.getD i 0, p.xs.getD (i + 1) 0, p.ys.getD (i + 1) 0,
             p.yaws.getD i 0) := by
  unfold pathSegments
  rw [List.mem_iff_getElem]
  constructor
  · rintro ⟨n, hn, hs⟩
    have hlen := hn
    simp only [List.length_zip, List.length_dropLast, List.length_drop, lt_min_iff] at hlen
    have h1 : n + 1 < p.xs.length := by omega
    have h2 : n + 1 < p.ys.length := by omega
    have h3 : n + 1 < p.yaws.length := by omega
    refine ⟨n, ⟨h1, h2, h3⟩, ?_⟩
    rw [← hs]
    rw [List.getElem_zip, List.getElem_zip, List.getElem_zip, List.getElem_zip,
      List.getElem_dropLast, List.getElem_dropLast, List.getElem_dropLast,
      List.getElem_drop, List.getElem_drop,
      List.getD_eq_getElem _ _ (show n < p.xs.length by omega),
      List.getD_eq_getElem _ _ (show n < p.ys.length by omega),
      List.getD_eq_getElem _ _ h1, List.getD_eq_getElem _ _ h2,
      List.getD_eq_getElem _ _ (show n < p.yaws.length by omega)]
    simp [Nat.add_comm]
  · rintro ⟨i, ⟨h1, h2, h3⟩, rfl⟩
    have hn : i < (p.xs.dropLast.zip (p.ys.dropLast.zip
        ((p.xs.drop 1).zip ((p.ys.drop 1).zip p.yaws.dropLast)))).length := by
      simp only [List.length_zip, List.length_dropLast, List.length_drop, lt_min_iff]
      omega
    refine ⟨i, hn, ?_⟩
    rw [List.getElem_zip, List.getElem_zip, List.getElem_zip, List.getElem_zip,
      List.getElem_dropLast, List.getElem_dropLast, List.getElem_dropLast,
      List.getElem_drop, List.getElem_drop,
      List.getD_eq_getElem _ _ (show i < p.xs.length by omega),
      List.getD_eq_getElem _ _ (show i < p.ys.length by omega),
      List.getD_eq_getElem _ _ h1, List.getD_eq_getElem _ _ h2,
      List.getD_eq_getElem _ _ (show i < p.yaws.length by omega)]
    simp [Nat.add_comm]

/-- C1: the minimality tester accepts (returns `true`) exactly when no
consecutive sampled segment of the candidate path together with a
previously accepted end pose is simultaneously below the distance
threshold `0.5 * gridSeparation` and the rotation threshold
`0.5 * (360 / numberOfHeadings)` degrees; equivalently, it rejects iff
some such pair exists. -/
theorem c1_is_minimal_path_iff (cfg : Config) (p : TrajectoryPath)
    (priors : List (ℝ × ℝ × ℝ)) :
    is_minimal_path cfg p priors = true ↔
      ¬ ∃ i, (i + 1 < p.xs.length ∧ i + 1 < p.ys.length ∧ i + 1 < p.yaws.length) ∧
        ∃ q ∈ priors,
          point_to_line_distance (p.xs.getD i 0, p.ys.getD i 0)
              (p.xs.getD (i + 1) 0, p.ys.getD (i + 1) 0) (q.1, q.2.1) <
            0.5 * cfg.gridSeparation ∧
          angle_difference (p.yaws.getD i 0) q.2.2 <
            0.5 * deg2rad (360 / (cfg.numberOfHeadings : ℝ)) := by
  simp only [is_minimal_path, List.all_eq_true, Bool.not_eq_true',
    decide_eq_false_iff_not]
  constructor
  · rintro h ⟨i, hb, q, hq, hc1, hc2⟩
    exact h _ ((mem_pathSegments_iff p _).mpr ⟨i, hb, rfl⟩) q hq ⟨hc1, hc2⟩
  · intro h s hs q hq hc
    obtain ⟨i, hb, rfl⟩ := (mem_pathSegments_iff p s).mp hs
    exact h ⟨i, hb, q, hq, hc.1, hc.2⟩

/-- C9: with an empty collection of previously accepted end poses the
minimality tester accepts every candidate path; consequently, in the
search step, the first feasible trajectory the curve generator returns
for a start heading is always accepted and recorded. -/
theorem c9_first_feasible_accepted :
    (∀ (cfg : Config) (p : TrajectoryPath), is_minimal_path cfg p [] = true) ∧
    (∀ (cfg : Config) (gen : CurveGen) (start_heading : ℝ)
        (l : List ((ℝ × ℝ) × ℝ)) (target_point : ℝ × ℝ) (target_heading : ℝ)
        (trajectory : Trajectory),
      gen target_point start_heading target_heading (0.1 * cfg.gridSeparation) =
          some trajectory →
      search_step cfg gen start_heading ([], l) target_point target_heading =
        ([(target_point.1, target_point.2, deg2rad target_heading)],
         l ++ [(target_point, target_heading)])) := by
  have hA : ∀ (cfg : Config) (p : TrajectoryPath), is_minimal_path cfg p [] = true := by
    intro cfg p
    simp [is_minimal_path]
  refine ⟨hA, ?_⟩
  intro cfg gen start_heading l target_point target_heading trajectory h
  simp only [search_step, h]
  rw [if_pos (hA cfg trajectory.path)]
  rfl

/-- C9 witness: with the always-succeeding generator and empty prior
state, the candidate at `(1, 0)` with target heading 45 is accepted. -/
theorem c9_first_feasible_accepted_witness :
    genT0 (1, 0) 0 45 (0.1 * cfgA.gridSeparation) = some t0 ∧
    search_step cfgA genT0 0 ([], []) (1, 0) 45 =
      ([((1 : ℝ), (0 : ℝ), deg2rad 45)], [(((1 : ℝ), (0 : ℝ)), (45 : ℝ))]) :=
  ⟨rfl, c9_first_feasible_accepted.2 cfgA genT0 0 [] (1, 0) 45 t0 rfl⟩

/-- C7: the motion-model dispatcher returns the spanning set unchanged for
ACKERMANN, and raises the unsupported-configuration error exactly when the
model is none of ACKERMANN, DIFF and OMNI (the spanning set is a pure
value, so nothing is modified in the error case). -/
theorem c7_handle_motion_model (cfg : Config) (s : List (ℝ × List Prim)) :
    (cfg.motionModel = MotionModel.ACKERMANN → handle_motion_model cfg s = Except.ok s) ∧
    ((∃ e, handle_motion_model cfg s = Except.error e) ↔
      (cfg.motionModel ≠ MotionModel.ACKERMANN ∧ cfg.motionModel ≠ MotionModel.DIFF ∧
        cfg.motionModel ≠ MotionModel.OMNI)) := by
  rcases cfg with ⟨g, t, m, n, mm⟩
  cases mm <;> simp [handle_motion_model]

/-- C7 witness: the dispatcher applied to the concrete ACKERMANN
configuration and the empty spanning set. -/
theorem c7_handle_motion_model_witness :
    handle_motion_model cfgA [] = Except.ok [] :=
  (c7_handle_motion_model cfgA []).1 rfl

/-- C8: the generator is a deterministic function of its configuration and
its curve-generator collaborator: two invocations with the same
collaborator produce equal outputs. -/
theorem c8_run_deterministic (cfg : Config) (g1 g2 : CurveGen) (h : g1 = g2) :
    runGenerator cfg g1 = runGenerator cfg g2 ∧
    runGenerator cfg g1 = runGenerator cfg g1 := by
  subst h
  exact ⟨rfl, rfl⟩

/-- C8 witness: the determinism theorem applied at the concrete
configuration and the always-failing generator. -/
theorem c8_run_deterministic_witness :
    genNone = genNone ∧ runGenerator cfgA genNone = runGenerator cfgA genNone :=
  ⟨rfl, (c8_run_deterministic cfgA genNone genNone rfl).2⟩

/-- C5 counterexample: at the real inputs `a = 0`, `b = 7` (radians) the
absolute difference exceeds π, so the code returns `2π - 7 < 0`, which is
not in `[0, π]`; the claim's "always lies in `[0, π]`" part is false. -/
theorem c5_range_counterexample : ¬ (0 ≤ angle_difference 0 7) := by
  have hpi : π < 3.15 := Real.pi_lt_d2
  have h7 : |(0:ℝ) - 7| = 7 := by norm_num
  have hgt : |(0:ℝ) - 7| > π := by rw [h7]; linarith
  have : angle_difference 0 7 = 2 * π - 7 := by
    unfold angle_difference
    rw [if_pos hgt, h7]
  rw [this]
  intro hc
  linarith

/-- C5 (amended): `angle_difference a b` equals `|a - b|` when
`|a - b| ≤ π` and `2π - |a - b|` otherwise, for all real inputs; the
returned value lies in `[0, π]` whenever `|a - b| ≤ 2π` (the situation for
angles taken from a single circle), not for arbitrary real inputs. -/
theorem c5_angle_difference_amended (a b : ℝ) :
    (angle_difference a b = if |a - b| ≤ π then |a - b| else 2 * π - |a - b|) ∧
    (|a - b| ≤ 2 * π → 0 ≤ angle_difference a b ∧ angle_difference a b ≤ π) := by
  have hpi : (0:ℝ) < π := Real.pi_pos
  constructor
  · unfold angle_difference
    rcases le_or_lt |a - b| π with h | h
    · rw [if_neg (not_lt.mpr h), if_pos h]
    · rw [if_pos h, if_neg (not_le.mpr h)]
  · intro hle
    unfold angle_difference
    rcases le_or_lt |a - b| π with h | h
    · rw [if_neg (not_lt.mpr h)]
      exact ⟨abs_nonneg _, h⟩
    · rw [if_pos h]
      constructor <;> linarith

/-- C5 witness: the amended theorem applied at the concrete inputs
`a = 0`, `b = 1`. -/
theorem c5_angle_difference_amended_witness :
    |(0:ℝ) - 1| ≤ 2 * π ∧
      (0 ≤ angle_difference 0 1 ∧ angle_difference 0 1 ≤ π) := by
  have h : |(0:ℝ) - 1| ≤ 2 * π := by
    have := Real.pi_gt_three
    rw [show |(0:ℝ) - 1| = 1 by norm_num]
    linarith
  exact ⟨h, (c5_angle_difference_amended 0 1).2 h⟩

theorem arctan_pos_of_pos {t : ℝ} (h : 0 < t) : 0 < arctan t := by
  have h2 := Real.arctan_strictMono h
  rwa [Real.arctan_zero] at h2

theorem arctan_neg_of_neg {t : ℝ} (h : t < 0) : arctan t < 0 := by
  have h2 := Real.arctan_strictMono h
  rwa [Real.arctan_zero] at h2

theorem arctan_nonpos_of_nonpos {t : ℝ} (h : t ≤ 0) : arctan t ≤ 0 := by
  have h2 := Real.arctan_strictMono.monotone h
  rwa [Real.arctan_zero] at h2

theorem atan2_pos_lt_pi {y x : ℝ} (hy : 0 < y) : 0 < atan2 y x ∧ atan2 y x < π := by
  have hpi := Real.pi_pos
  unfold atan2
  rcases lt_trichotomy x 0 with hx | hx | hx
  · rw [if_neg (by linarith), if_pos hx, if_pos (le_of_lt hy)]
    have hq : y / x < 0 := div_neg_of_pos_of_neg hy hx
    have h1 : arctan (y / x) < 0 := arctan_neg_of_neg hq
    have h2 : -(π / 2) < arctan (y / x) := Real.neg_pi_div_two_lt_arctan _
    constructor <;> linarith
  · subst hx
    rw [if_neg (lt_irrefl 0), if_neg (lt_irrefl 0), if_pos hy]
    constructor <;> linarith
  · rw [if_pos hx]
    have hq : 0 < y / x := div_pos hy hx
    have h1 : 0 < arctan (y / x) := arctan_pos_of_pos hq
    have h2 : arctan (y / x) < π / 2 := Real.arctan_lt_pi_div_two _
    constructor <;> linarith

theorem atan2_neg_lt_zero {y x : ℝ} (hy : y < 0) :
    -π < atan2 y x ∧ atan2 y x < 0 := by
  have hpi := Real.pi_pos
  unfold atan2
  rcases lt_trichotomy x 0 with hx | hx | hx
  · rw [if_neg (by linarith), if_pos hx, if_neg (by linarith)]
    have hq : 0 < y / x := div_pos_of_neg_of_neg hy hx
    have h1 : 0 < arctan (y / x) := arctan_pos_of_pos hq
    have h2 : arctan (y / x) < π / 2 := Real.arctan_lt_pi_div_two _
    constructor <;> linarith
  · subst hx
    rw [if_neg (lt_irrefl 0), if_neg (lt_irrefl 0), if_neg (by linarith), if_pos hy]
    constructor <;> linarith
  · rw [if_pos hx]
    have hq : y / x < 0 := div_neg_of_neg_of_pos hy hx
    have h1 : arctan (y / x) < 0 := arctan_neg_of_neg hq
    have h2 : -(π / 2) < arctan (y / x) := Real.neg_pi_div_two_lt_arctan _
    constructor <;> linarith

theorem atan2_zero_pos {x : ℝ} (hx : 0 < x) : atan2 0 x = 0 := by
  unfold atan2
  rw [if_pos hx, zero_div, Real.arctan_zero]

theorem atan2_zero_neg {x : ℝ} (hx : x < 0) : atan2 0 x = π := by
  unfold atan2
  rw [if_neg (by linarith), if_pos hx, if_pos le_rfl, zero_div, Real.arctan_zero, zero_add]

theorem atan2_zero_zero : atan2 0 0 = 0 := by
  unfold atan2
  rw [if_neg (lt_irrefl 0), if_neg (lt_irrefl 0), if_neg (lt_irrefl 0), if_neg (lt_irrefl 0)]

theorem atan2_neg_y {y x : ℝ} (h : ¬(y = 0 ∧ x < 0)) : atan2 (-y) x = -atan2 y x := by
  have hpi := Real.pi_pos
  unfold atan2
  rcases lt_trichotomy x 0 with hx | hx | hx
  · rcases lt_trichotomy y 0 with hy | hy | hy
    · rw [if_neg (by linarith), if_pos hx, if_pos (by linarith), if_neg (by linarith),
        if_pos hx, if_neg (by linarith), neg_div, Real.arctan_neg]
      ring
    · exact absurd ⟨hy, hx⟩ h
    · rw [if_neg (by linarith), if_pos hx, if_neg (by linarith), if_neg (by linarith),
        if_pos hx, if_pos (by linarith), neg_div, Real.arctan_neg]
      ring
  · subst hx
    rcases lt_trichotomy y 0 with hy | hy | hy
    · rw [if_neg (lt_irrefl 0), if_neg (lt_irrefl 0), if_pos (by linarith),
        if_neg (lt_irrefl 0), if_neg (lt_irrefl 0), if_neg (by linarith), if_pos hy]
      ring
    · subst hy
      rw [neg_zero]
      rw [if_neg (lt_irrefl 0), if_neg (lt_irrefl 0), if_neg (lt_irrefl 0),
        if_neg (lt_irrefl 0)]
      ring
    · rw [if_neg (lt_irrefl 0), if_neg (lt_irrefl 0), if_neg (by linarith),
        if_pos (by linarith), if_neg (lt_irrefl 0), if_neg (lt_irrefl 0), if_pos hy]
  · rw [if_pos hx, if_pos hx, neg_div, Real.arctan_neg]

theorem atan2_neg_x_pos {y x : ℝ} (hy : 0 < y) : atan2 y (-x) = π - atan2 y x := by
  unfold atan2
  rcases lt_trichotomy x 0 with hx | hx | hx
  · rw [if_pos (by linarith : (0:ℝ) < -x), if_neg (by linarith : ¬ (0:ℝ) < x), if_pos hx,
      if_pos (le_of_lt hy), div_neg, Real.arctan_neg]
    ring
  · subst hx
    rw [neg_zero, if_neg (lt_irrefl 0), if_neg (lt_irrefl 0), if_pos hy]
    ring
  · rw [if_neg (by linarith : ¬ (0:ℝ) < -x), if_pos (by linarith : -x < 0),
      if_pos (le_of_lt hy), if_pos hx, div_neg, Real.arctan_neg]
    ring

theorem atan2_neg_x_neg {y x : ℝ} (hy : y < 0) : atan2 y (-x) = -π - atan2 y x := by
  unfold atan2
  rcases lt_trichotomy x 0 with hx | hx | hx
  · rw [if_pos (by linarith : (0:ℝ) < -x), if_neg (by linarith : ¬ (0:ℝ) < x), if_pos hx,
      if_neg (by linarith : ¬ (0:ℝ) ≤ y), div_neg, Real.arctan_neg]
    ring
  · subst hx
    rw [neg_zero, if_neg (lt_irrefl 0), if_neg (lt_irrefl 0),
      if_neg (by linarith : ¬ (0:ℝ) < y), if_pos hy]
    ring
  · rw [if_neg (by linarith : ¬ (0:ℝ) < -x), if_pos (by linarith : -x < 0),
      if_neg (by linarith : ¬ (0:ℝ) ≤ y), if_pos hx, div_neg, Real.arctan_neg]
    ring

theorem atan2_pos_zero {y : ℝ} (hy : 0 < y) : atan2 y 0 = π / 2 := by
  unfold atan2
  rw [if_neg (lt_irrefl 0), if_neg (lt_irrefl 0), if_pos hy]

theorem atan2_neg_zero {y : ℝ} (hy : y < 0) : atan2 y 0 = -(π / 2) := by
  unfold atan2
  rw [if_neg (lt_irrefl 0), if_neg (lt_irrefl 0), if_neg (by linarith), if_pos hy]

theorem rad2deg_zero : rad2deg 0 = 0 := by
  unfold rad2deg
  ring

theorem rad2deg_pi : rad2deg π = 180 := by
  unfold rad2deg
  field_simp

theorem rad2deg_neg (a : ℝ) : rad2deg (-a) = -rad2deg a := by
  unfold rad2deg
  ring

theorem rad2deg_pi_sub (a : ℝ) : rad2deg (π - a) = 180 - rad2deg a := by
  unfold rad2deg
  field_simp
  ring

theorem rad2deg_neg_pi_sub (a : ℝ) : rad2deg (-π - a) = -180 - rad2deg a := by
  unfold rad2deg
  field_simp
  ring

theorem rad2deg_bounds_pos {a : ℝ} (h1 : 0 < a) (h2 : a < π) :
    0 < rad2deg a ∧ rad2deg a < 180 := by
  have hpi := Real.pi_pos
  unfold rad2deg
  constructor
  · positivity
  · rw [div_lt_iff₀ hpi]
    nlinarith

theorem rad2deg_bounds_neg {a : ℝ} (h1 : -π < a) (h2 : a < 0) :
    -180 < rad2deg a ∧ rad2deg a < 0 := by
  have hpi := Real.pi_pos
  have hb := rad2deg_bounds_pos (show 0 < -a by linarith) (show -a < π by linarith)
  rw [rad2deg_neg] at hb
  constructor <;> linarith [hb.1, hb.2]

theorem zip_flatMap {α β γ : Type} (fx : α → List β) (fy : α → List γ)
    (h : ∀ a, (fx a).length = (fy a).length) (L : List α) :
    (L.flatMap fx).zip (L.flatMap fy) = L.flatMap fun a => (fx a).zip (fy a) := by
  induction L with
  | nil => rfl
  | cons a t ih => simp only [List.flatMap_cons, List.zip_append (h a), ih]

theorem compassCells_eq_flatMap (m : ℕ) :
    compassCells m = (iRange m).flatMap (cellBlock m) := by
  unfold compassCells outer_edge_x outer_edge_y
  rw [zip_flatMap _ _
    (fun a => by by_cases hc : a ≠ (m : ℤ) ∧ a ≠ -(m : ℤ) <;> simp [hc])]
  exact congrArg (List.flatMap (iRange m)) (funext fun a => by
    by_cases hc : a ≠ (m : ℤ) ∧ a ≠ -(m : ℤ) <;> simp [cellBlock, hc])

theorem mem_iRange {m : ℕ} {i : ℤ} : i ∈ iRange m ↔ -(m : ℤ) ≤ i ∧ i ≤ (m : ℤ) := by
  unfold iRange
  constructor
  · intro h
    obtain ⟨k, hk, rfl⟩ := List.mem_map.mp h
    have hk2 := List.mem_range.mp hk
    omega
  · rintro ⟨h1, h2⟩
    exact List.mem_map.mpr ⟨(i + m).toNat, List.mem_range.mpr (by omega), by omega⟩

theorem mem_compassCells {m : ℕ} {c : ℤ × ℤ} :
    c ∈ compassCells m ↔
      ∃ i, (-(m : ℤ) ≤ i ∧ i ≤ (m : ℤ)) ∧
        (c = (i, -(m : ℤ)) ∨ c = (i, (m : ℤ)) ∨
          ((i ≠ (m : ℤ) ∧ i ≠ -(m : ℤ)) ∧ (c = (-(m : ℤ), i) ∨ c = ((m : ℤ), i)))) := by
  rw [compassCells_eq_flatMap, List.mem_flatMap]
  constructor
  · rintro ⟨i, hi, hc⟩
    refine ⟨i, mem_iRange.mp hi, ?_⟩
    unfold cellBlock at hc
    by_cases hcnd : i ≠ (m : ℤ) ∧ i ≠ -(m : ℤ)
    · rw [if_pos hcnd] at hc
      simp only [List.mem_append, List.mem_cons, List.mem_singleton,
        List.not_mem_nil, or_false] at hc
      tauto
    · rw [if_neg hcnd] at hc
      simp only [List.append_nil, List.mem_cons, List.mem_singleton,
        List.not_mem_nil, or_false] at hc
      tauto
  · rintro ⟨i, hi, hc⟩
    refine ⟨i, mem_iRange.mpr hi, ?_⟩
    unfold cellBlock
    by_cases hcnd : i ≠ (m : ℤ) ∧ i ≠ -(m : ℤ)
    · rw [if_pos hcnd]
      simp only [List.mem_append, List.mem_cons, List.mem_singleton,
        List.not_mem_nil, or_false]
      tauto
    · rw [if_neg hcnd]
      simp only [List.append_nil, List.mem_cons, List.mem_singleton,
        List.not_mem_nil, or_false]
      tauto

theorem length_flatMap_const {α β : Type} {l : List α} {b : α → List β} {c : ℕ}
    (h : ∀ x ∈ l, (b x).length = c) : (l.flatMap b).length = c * l.length := by
  induction l with
  | nil => simp
  | cons a t ih =>
    simp only [List.flatMap_cons, List.length_append, List.length_cons]
    rw [h a (by simp), ih (fun x hx => h x (by simp [hx]))]
    ring

theorem length_compassCells {m : ℕ} (hm : 1 ≤ m) : (compassCells m).length = 8 * m := by
  rw [compassCells_eq_flatMap]
  have h1 : iRange m =
      (-(m : ℤ)) :: ((List.range (2 * m)).map fun (k : ℕ) => ((k : ℤ) + 1 - (m : ℤ))) := by
    unfold iRange
    rw [List.range_succ_eq_map, List.map_cons, List.map_map]
    refine congrArg₂ List.cons ?_ ?_
    · show ((0 : ℕ) : ℤ) - (m : ℤ) = -(m : ℤ)
      push_cast
      ring
    · refine List.map_congr_left fun a _ => ?_
      show (((a + 1 : ℕ)) : ℤ) - (m : ℤ) = ((a : ℕ) : ℤ) + 1 - (m : ℤ)
      push_cast
      ring
  have h2 : 2 * m = (2 * m - 1) + 1 := by omega
  rw [h1, h2, List.range_succ, List.map_append, List.flatMap_cons, List.flatMap_append]
  have hA : (cellBlock m (-(m : ℤ))).length = 2 := by
    rw [cellBlock, if_neg (by omega)]
    simp
  have hBv : (((2 * m - 1 : ℕ) : ℤ) + 1 - (m : ℤ)) = (m : ℤ) := by omega
  have hB : ((([(2 * m - 1 : ℕ)].map fun (k : ℕ) => ((k : ℤ) + 1 - (m : ℤ))).flatMap
      (cellBlock m)).length) = 2 := by
    simp only [List.map_cons, List.map_nil, List.flatMap_cons, List.flatMap_nil,
      List.append_nil, hBv]
    rw [cellBlock, if_neg (by omega)]
    simp
  have hC : ((((List.range (2 * m - 1)).map fun (k : ℕ) => ((k : ℤ) + 1 - (m : ℤ))).flatMap
      (cellBlock m)).length) = 4 * (2 * m - 1) := by
    rw [length_flatMap_const (c := 4), List.length_map, List.length_range]
    intro x hx
    obtain ⟨k, hk, rfl⟩ := List.mem_map.mp hx
    have hk2 := List.mem_range.mp hk
    rw [cellBlock, if_pos (by omega)]
    simp
  simp only [List.length_append, hA, hB, hC]
  omega

theorem compassCells_reflect {m : ℕ} {i j : ℤ} (h : (i, j) ∈ compassCells m) :
    (i, -j) ∈ compassCells m ∧ (-i, j) ∈ compassCells m := by
  rw [mem_compassCells] at h
  obtain ⟨a, ⟨ha1, ha2⟩, hc⟩ := h
  rcases hc with h1 | h1 | ⟨⟨hne1, hne2⟩, h1 | h1⟩
  · rw [Prod.mk.injEq] at h1
    obtain ⟨h1a, h1b⟩ := h1
    rw [h1a, h1b]
    constructor
    · rw [neg_neg]
      exact mem_compassCells.mpr ⟨a, ⟨ha1, ha2⟩, Or.inr (Or.inl rfl)⟩
    · exact mem_compassCells.mpr ⟨-a, ⟨by omega, by omega⟩, Or.inl rfl⟩
  · rw [Prod.mk.injEq] at h1
    obtain ⟨h1a, h1b⟩ := h1
    rw [h1a, h1b]
    constructor
    · exact mem_compassCells.mpr ⟨a, ⟨ha1, ha2⟩, Or.inl rfl⟩
    · exact mem_compassCells.mpr ⟨-a, ⟨by omega, by omega⟩, Or.inr (Or.inl rfl)⟩
  · rw [Prod.mk.injEq] at h1
    obtain ⟨h1a, h1b⟩ := h1
    rw [h1a, h1b]
    constructor
    · exact mem_compassCells.mpr
        ⟨-a, ⟨by omega, by omega⟩,
          Or.inr (Or.inr ⟨⟨by omega, by omega⟩, Or.inl rfl⟩)⟩
    · rw [neg_neg]
      exact mem_compassCells.mpr ⟨a, ⟨ha1, ha2⟩,
        Or.inr (Or.inr ⟨⟨hne1, hne2⟩, Or.inr rfl⟩)⟩
  · rw [Prod.mk.injEq] at h1
    obtain ⟨h1a, h1b⟩ := h1
    rw [h1a, h1b]
    constructor
    · exact mem_compassCells.mpr
        ⟨-a, ⟨by omega, by omega⟩,
          Or.inr (Or.inr ⟨⟨by omega, by omega⟩, Or.inr rfl⟩)⟩
    · exact mem_compassCells.mpr ⟨a, ⟨ha1, ha2⟩,
        Or.inr (Or.inr ⟨⟨hne1, hne2⟩, Or.inl rfl⟩)⟩

theorem normDeg_neg_heading {x y : ℝ} :
    normDeg (-(rad2deg (atan2 y x))) = rad2deg (atan2 (-y) x) := by
  rcases lt_trichotomy y 0 with hy | hy | hy
  · have hb := atan2_neg_lt_zero (x := x) hy
    have hd := rad2deg_bounds_neg hb.1 hb.2
    rw [atan2_neg_y (by rintro ⟨h0, _⟩; exact absurd h0 (ne_of_lt hy)), rad2deg_neg,
      normDeg, if_neg (by linarith), if_neg (by linarith)]
  · subst hy
    rw [neg_zero]
    rcases lt_trichotomy x 0 with hx | hx | hx
    · rw [atan2_zero_neg hx, rad2deg_pi, normDeg, if_neg (by norm_num),
        if_pos (by norm_num)]
      norm_num
    · subst hx
      rw [atan2_zero_zero, rad2deg_zero, neg_zero, normDeg, if_neg (by norm_num),
        if_neg (by norm_num)]
    · rw [atan2_zero_pos hx, rad2deg_zero, neg_zero, normDeg, if_neg (by norm_num),
        if_neg (by norm_num)]
  · have hb := atan2_pos_lt_pi (x := x) hy
    have hd := rad2deg_bounds_pos hb.1 hb.2
    rw [atan2_neg_y (by rintro ⟨h0, _⟩; exact absurd h0 (ne_of_gt hy)), rad2deg_neg,
      normDeg, if_neg (by linarith), if_neg (by linarith)]

theorem normDeg_pi_sub_heading {x y : ℝ} (h : ¬(x = 0 ∧ y = 0)) :
    normDeg (180 - rad2deg (atan2 y x)) = rad2deg (atan2 y (-x)) := by
  rcases lt_trichotomy y 0 with hy | hy | hy
  · have hb := atan2_neg_lt_zero (x := x) hy
    have hd := rad2deg_bounds_neg hb.1 hb.2
    rw [atan2_neg_x_neg hy, rad2deg_neg_pi_sub, normDeg, if_pos (by linarith)]
    ring
  · subst hy
    rcases lt_trichotomy x 0 with hx | hx | hx
    · rw [atan2_zero_neg hx, rad2deg_pi, show -x = -x from rfl,
        atan2_zero_pos (by linarith : 0 < -x), rad2deg_zero, normDeg,
        if_neg (by norm_num), if_neg (by norm_num)]
      norm_num
    · exact absurd ⟨hx.symm ▸ rfl, rfl⟩ h
    · rw [atan2_zero_pos hx, rad2deg_zero,
        atan2_zero_neg (by linarith : -x < 0), rad2deg_pi, normDeg,
        if_neg (by norm_num), if_neg (by norm_num)]
      norm_num
  · have hb := atan2_pos_lt_pi (x := x) hy
    have hd := rad2deg_bounds_pos hb.1 hb.2
    rw [atan2_neg_x_pos hy, rad2deg_pi_sub, normDeg, if_neg (by linarith),
      if_neg (by linarith)]

theorem max_val_eight (k : ℕ) : max_val (8 * k) = k := by
  unfold max_val pyInt
  have h : ((((8 * k : ℕ) : ℝ) + 4) / 4 - 1) / 2 = (k : ℝ) := by
    push_cast
    ring
  rw [h, if_pos (by positivity), Int.floor_natCast]
  simp

/-- C4 counterexample: `numberOfHeadings = 4` is a positive count the
configuration accepts, yet the compass construction collapses to
`max_val = 0` and returns only 2 heading values, not 4. -/
theorem c4_counterexample : ¬ ((get_heading_discretization 4).length = 4) := by
  have hm : max_val 4 = 0 := by
    unfold max_val pyInt
    have h : ((((4 : ℕ) : ℝ) + 4) / 4 - 1) / 2 = 1 / 2 := by norm_num
    rw [h, if_pos (by norm_num)]
    rw [show ⌊(1 / 2 : ℝ)⌋ = 0 from Int.floor_eq_zero_iff.mpr (by constructor <;> norm_num)]
    rfl
  intro hc
  rw [get_heading_discretization, hm] at hc
  rw [show compassCells 0 = [(0, 0), (0, 0)] from by decide] at hc
  simp at hc

theorem rad2deg_half_pi : rad2deg (π / 2) = 90 := by
  unfold rad2deg
  field_simp
  ring

theorem rad2deg_neg_half_pi : rad2deg (-(π / 2)) = -90 := by
  rw [rad2deg_neg, rad2deg_half_pi]

theorem compassCells_ne_zero {m : ℕ} (hm : 1 ≤ m) {i j : ℤ}
    (h : (i, j) ∈ compassCells m) : ¬(i = 0 ∧ j = 0) := by
  rw [mem_compassCells] at h
  obtain ⟨a, _, hc⟩ := h
  rcases hc with h1 | h1 | ⟨_, h1 | h1⟩ <;>
    (rw [Prod.mk.injEq] at h1; obtain ⟨ha, hb⟩ := h1; rintro ⟨rfl, rfl⟩; omega)

/-- C4 (amended): the heading-count formula only realizes the requested
count when `numberOfHeadings` is a positive multiple of 8 (the compass
decomposition); in that case `get_heading_discretization` returns exactly
`numberOfHeadings` heading values, the four axis directions 0, 90, 180 and
-90 all occur (the set covers the full circle), and the set is closed
under negation and under the reflection `θ ↦ 180 - θ`, up to
normalization into `(-180, 180]`. -/
theorem c4_heading_discretization_amended (n : ℕ) (h8 : 8 ∣ n) (hn : 0 < n) :
    (get_heading_discretization n).length = n ∧
    ((0 : ℝ) ∈ get_heading_discretization n ∧ (90 : ℝ) ∈ get_heading_discretization n ∧
      (180 : ℝ) ∈ get_heading_discretization n ∧
      (-90 : ℝ) ∈ get_heading_discretization n) ∧
    (∀ θ ∈ get_heading_discretization n,
      normDeg (-θ) ∈ get_heading_discretization n ∧
      normDeg (180 - θ) ∈ get_heading_discretization n) := by
  obtain ⟨k, rfl⟩ := h8
  have hk : 1 ≤ k := by omega
  have hkr : (0 : ℝ) < (k : ℝ) := by
    exact_mod_cast Nat.pos_of_ne_zero (by omega)
  simp only [get_heading_discretization, max_val_eight]
  refine ⟨?_, ⟨?_, ?_, ?_, ?_⟩, ?_⟩
  · rw [List.length_map, length_compassCells hk]
  · refine List.mem_map.mpr ⟨((k : ℤ), (0 : ℤ)), ?_, ?_⟩
    · exact mem_compassCells.mpr
        ⟨0, ⟨by omega, by omega⟩, Or.inr (Or.inr ⟨⟨by omega, by omega⟩, Or.inr rfl⟩)⟩
    · show rad2deg (atan2 (((0 : ℤ)) : ℝ) (((k : ℤ)) : ℝ)) = 0
      rw [Int.cast_zero, Int.cast_natCast, atan2_zero_pos hkr, rad2deg_zero]
  · refine List.mem_map.mpr ⟨((0 : ℤ), (k : ℤ)), ?_, ?_⟩
    · exact mem_compassCells.mpr ⟨0, ⟨by omega, by omega⟩, Or.inr (Or.inl rfl)⟩
    · show rad2deg (atan2 (((k : ℤ)) : ℝ) (((0 : ℤ)) : ℝ)) = 90
      rw [Int.cast_zero, Int.cast_natCast, atan2_pos_zero hkr, rad2deg_half_pi]
  · refine List.mem_map.mpr ⟨((-(k : ℤ)), (0 : ℤ)), ?_, ?_⟩
    · exact mem_compassCells.mpr
        ⟨0, ⟨by omega, by omega⟩, Or.inr (Or.inr ⟨⟨by omega, by omega⟩, Or.inl rfl⟩)⟩
    · simp only [Int.cast_neg, Int.cast_natCast, Int.cast_zero]
      rw [atan2_zero_neg (by linarith), rad2deg_pi]
  · refine List.mem_map.mpr ⟨((0 : ℤ), (-(k : ℤ))), ?_, ?_⟩
    · exact mem_compassCells.mpr ⟨0, ⟨by omega, by omega⟩, Or.inl rfl⟩
    · simp only [Int.cast_neg, Int.cast_natCast, Int.cast_zero]
      rw [atan2_neg_zero (by linarith), rad2deg_neg_half_pi]
  · intro θ hθ
    obtain ⟨c, hc, rfl⟩ := List.mem_map.mp hθ
    obtain ⟨i, j⟩ := c
    have href := compassCells_reflect hc
    have hnz := compassCells_ne_zero hk hc
    constructor
    · refine List.mem_map.mpr ⟨(i, -j), href.1, ?_⟩
      show rad2deg (atan2 ((-j : ℤ) : ℝ) ((i : ℤ) : ℝ)) =
        normDeg (-(rad2deg (atan2 ((j : ℤ) : ℝ) ((i : ℤ) : ℝ))))
      rw [Int.cast_neg]
      exact normDeg_neg_heading.symm
    · refine List.mem_map.mpr ⟨(-i, j), href.2, ?_⟩
      show rad2deg (atan2 ((j : ℤ) : ℝ) ((-i : ℤ) : ℝ)) =
        normDeg (180 - rad2deg (atan2 ((j : ℤ) : ℝ) ((i : ℤ) : ℝ)))
      rw [Int.cast_neg]
      refine (normDeg_pi_sub_heading ?_).symm
      rintro ⟨hx, hy⟩
      exact hnz ⟨by exact_mod_cast hx, by exact_mod_cast hy⟩

/-- C4 witness: the amended theorem applied at `numberOfHeadings = 8`. -/
theorem c4_heading_discretization_amended_witness :
    (8 ∣ 8 ∧ 0 < 8) ∧ (get_heading_discretization 8).length = 8 ∧
      (normDeg (-0) ∈ get_heading_discretization 8 ∧
        normDeg (180 - 0) ∈ get_heading_discretization 8) := by
  have H := c4_heading_discretization_amended 8 (by decide) (by decide)
  exact ⟨⟨by decide, by decide⟩, H.1, H.2.2 0 H.2.1.1⟩

theorem keysOf_appendAt_mem {β : Type} {s : List (ℝ × List β)} {k : ℝ} (v : β)
    (hk : k ∈ keysOf s) : keysOf (appendAt s k v) = keysOf s := by
  induction s with
  | nil => simp [keysOf] at hk
  | cons e t ih =>
    obtain ⟨k0, l⟩ := e
    by_cases h : k0 = k
    · rw [appendAt, if_pos h]
      rfl
    · rw [appendAt, if_neg h]
      have hk2 : k ∈ keysOf t := by
        rcases List.mem_cons.mp hk with h1 | h1
        · exact absurd h1.symm h
        · exact h1
      show k0 :: keysOf (appendAt t k v) = k0 :: keysOf t
      rw [ih hk2]

theorem lookupD_appendAt_self {β : Type} (s : List (ℝ × List β)) (k : ℝ) (v : β) :
    lookupD (appendAt s k v) k = lookupD s k ++ [v] := by
  induction s with
  | nil => simp [appendAt, lookupD]
  | cons e t ih =>
    obtain ⟨k0, l⟩ := e
    by_cases h : k0 = k
    · rw [appendAt, if_pos h, lookupD, if_pos h, lookupD, if_pos h]
    · rw [appendAt, if_neg h, lookupD, if_neg h, lookupD, if_neg h]
      exact ih

theorem lookupD_appendAt_ne {β : Type} (s : List (ℝ × List β)) (k : ℝ) (v : β)
    (k2 : ℝ) (h : k2 ≠ k) : lookupD (appendAt s k v) k2 = lookupD s k2 := by
  induction s with
  | nil =>
    simp only [appendAt, lookupD]
    rw [if_neg (fun he => h he.symm)]
  | cons e t ih =>
    obtain ⟨k0, l⟩ := e
    by_cases h0 : k0 = k
    · rw [appendAt, if_pos h0, lookupD, lookupD, if_neg (h0 ▸ fun he => h he.symm),
        if_neg (h0 ▸ fun he => h he.symm)]
    · by_cases h2 : k0 = k2
      · rw [appendAt, if_neg h0, lookupD, if_pos h2, lookupD, if_pos h2]
      · rw [appendAt, if_neg h0, lookupD, if_neg h2, lookupD, if_neg h2]
        exact ih

theorem fold_appendAt2_lookup_notmem {α : Type} (key : α → ℝ) (F1 F2 : α → Prim)
    (L : List α) (s : List (ℝ × List Prim)) (k : ℝ) (h : ∀ x ∈ L, key x ≠ k) :
    lookupD (L.foldl (fun acc x =>
      appendAt (appendAt acc (key x) (F1 x)) (key x) (F2 x)) s) k = lookupD s k := by
  induction L generalizing s with
  | nil => rfl
  | cons a t ih =>
    rw [List.foldl_cons, ih _ (fun x hx => h x (List.mem_cons_of_mem a hx)),
      lookupD_appendAt_ne _ _ _ _ (Ne.symm (h a (List.mem_cons_self a t))),
      lookupD_appendAt_ne _ _ _ _ (Ne.symm (h a (List.mem_cons_self a t)))]

theorem fold_appendAt2_lookup {α : Type} (key : α → ℝ) (F1 F2 : α → Prim)
    (L : List α) (hnd : (L.map key).Nodup) (s : List (ℝ × List Prim)) (x : α)
    (hx : x ∈ L) :
    lookupD (L.foldl (fun acc z =>
        appendAt (appendAt acc (key z) (F1 z)) (key z) (F2 z)) s) (key x) =
      lookupD s (key x) ++ [F1 x, F2 x] := by
  induction L generalizing s with
  | nil => cases hx
  | cons a t ih =>
    rw [List.foldl_cons]
    rcases List.mem_cons.mp hx with rfl | hxt
    · have hnot : ∀ z ∈ t, key z ≠ key x := by
        intro z hz he
        exact (List.nodup_cons.mp hnd).1 (he ▸ List.mem_map_of_mem key hz)
      rw [fold_appendAt2_lookup_notmem key F1 F2 t _ _ hnot,
        lookupD_appendAt_self, lookupD_appendAt_self, List.append_assoc]
      rfl
    · have hne : key a ≠ key x := by
        intro he
        exact (List.nodup_cons.mp hnd).1 (he ▸ List.mem_map_of_mem key hxt)
      rw [ih (List.nodup_cons.mp hnd).2 _ hxt,
        lookupD_appendAt_ne _ _ _ _ (Ne.symm hne),
        lookupD_appendAt_ne _ _ _ _ (Ne.symm hne)]

theorem fold_appendAt2_keys {α : Type} (key : α → ℝ) (F1 F2 : α → Prim)
    (L : List α) (s : List (ℝ × List Prim)) (h : ∀ x ∈ L, key x ∈ keysOf s) :
    keysOf (L.foldl (fun acc z =>
      appendAt (appendAt acc (key z) (F1 z)) (key z) (F2 z)) s) = keysOf s := by
  induction L generalizing s with
  | nil => rfl
  | cons a t ih =>
    rw [List.foldl_cons]
    have hin := keysOf_appendAt_mem (s := s) (k := key a) (F1 a)
      (h a (List.mem_cons_self a t))
    have h1 : keysOf (appendAt (appendAt s (key a) (F1 a)) (key a) (F2 a)) = keysOf s := by
      rw [keysOf_appendAt_mem (F2 a) (by rw [hin]; exact h a (List.mem_cons_self a t)), hin]
    rw [ih _ (fun x hx => by rw [h1]; exact h x (List.mem_cons_of_mem a hx)), h1]

theorem orderedInsert_congr {α : Type} (r r2 : α → α → Prop) [DecidableRel r]
    [DecidableRel r2] (a : α) (l : List α) (h : ∀ b ∈ l, (r a b ↔ r2 a b)) :
    List.orderedInsert r a l = List.orderedInsert r2 a l := by
  induction l with
  | nil => rfl
  | cons b t ih =>
    rw [List.orderedInsert, List.orderedInsert]
    by_cases hr : r a b
    · rw [if_pos hr, if_pos ((h b (List.mem_cons_self b t)).mp hr)]
    · rw [if_neg hr, if_neg (fun h2 => hr ((h b (List.mem_cons_self b t)).mpr h2)),
        ih (fun c hc => h c (List.mem_cons_of_mem b hc))]

theorem insertionSort_congr {α : Type} (r r2 : α → α → Prop) [DecidableRel r]
    [DecidableRel r2] (l : List α) (h : ∀ a ∈ l, ∀ b ∈ l, (r a b ↔ r2 a b)) :
    List.insertionSort r l = List.insertionSort r2 l := by
  induction l with
  | nil => rfl
  | cons a t ih =>
    rw [List.insertionSort, List.insertionSort,
      ih (fun x hx y hy => h x (List.mem_cons_of_mem a hx) y (List.mem_cons_of_mem a hy))]
    exact orderedInsert_congr r r2 a _ (fun b hb =>
      h a (List.mem_cons_self a t)
        b (List.mem_cons_of_mem a ((List.perm_insertionSort r2 t).mem_iff.mp hb)))

theorem lookupD_head {β : Type} {s : List (ℝ × List β)} {k : ℝ} (hk : k ∈ keysOf s) :
    ∃ e ∈ s, e.1 = k ∧ lookupD s k = e.2 := by
  induction s with
  | nil => simp [keysOf] at hk
  | cons e t ih =>
    obtain ⟨k0, l⟩ := e
    by_cases h : k0 = k
    · exact ⟨(k0, l), List.mem_cons_self _ _, h, by rw [lookupD, if_pos h]⟩
    · have hk2 : k ∈ keysOf t := by
        rcases List.mem_cons.mp hk with h1 | h1
        · exact absurd h1.symm h
        · exact h1
      obtain ⟨e2, he2, heq, hl⟩ := ih hk2
      exact ⟨e2, List.mem_cons_of_mem _ he2, heq, by rw [lookupD, if_neg h]; exact hl⟩

theorem pyPrimListLe_iff_le {s : List (ℝ × List Prim)}
    (hhead : ∀ e ∈ s, ∃ p t, e.2 = p :: t ∧ Prim.start_angle p = e.1)
    {a b : ℝ} (ha : a ∈ keysOf s) (hb : b ∈ keysOf s) :
    (pyPrimListLe (lookupD s a) (lookupD s b) ↔ a ≤ b) := by
  rcases eq_or_ne a b with rfl | hab
  · exact iff_of_true (Or.inr rfl) le_rfl
  obtain ⟨ea, hea, heka, hla⟩ := lookupD_head ha
  obtain ⟨eb, heb, hekb, hlb⟩ := lookupD_head hb
  obtain ⟨pa, ta, hpa, hsa⟩ := hhead ea hea
  obtain ⟨pb, tb, hpb, hsb⟩ := hhead eb heb
  rw [hla, hpa, hlb, hpb]
  constructor
  · intro hle
    rcases hle with hlt | heq2
    · rcases hlt with hplt | ⟨hpe, _⟩
      · rcases hplt with hs | ⟨hseq, _⟩
        · rw [hsa, heka, hsb, hekb] at hs
          exact le_of_lt hs
        · rw [hsa, heka, hsb, hekb] at hseq
          exact absurd hseq hab
      · have he : a = b := by rw [← heka, ← hsa, hpe, hsb, hekb]
        exact absurd he hab
    · have hpe : pa = pb := by
        injection heq2
      have he : a = b := by rw [← heka, ← hsa, hpe, hsb, hekb]
      exact absurd he hab
  · intro hle
    have hlt : a < b := lt_of_le_of_ne hle hab
    exact Or.inl (Or.inl (Or.inl (by rw [hsa, heka, hsb, hekb]; exact hlt)))

/-- C2: under the DIFFERENTIAL model the dispatcher applies
`add_in_place_turns`, and for every key (taken at position `i` of the
keys in ascending numeric order, cyclically) exactly two zero-length,
zero-displacement turn primitives are appended beyond the ACKERMANN list:
one to the angularly previous and one to the angularly next heading.  The
hypotheses state the pipeline invariant that every key's list is nonempty
with its first record's start angle equal to the key (which makes the
source's sort by `spanning_set.get` coincide with the numeric sort). -/
theorem c2_add_in_place_turns (cfg : Config) (s : List (ℝ × List Prim))
    (hnd : (keysOf s).Nodup)
    (hhead : ∀ e ∈ s, ∃ p t, e.2 = p :: t ∧ Prim.start_angle p = e.1)
    (hmm : cfg.motionModel = MotionModel.DIFF) :
    handle_motion_model cfg s = Except.ok (add_in_place_turns s) ∧
    ∀ i, i < (sortedKeys s).length →
      lookupD (add_in_place_turns s) ((sortedKeys s).getD i 0) =
        lookupD s ((sortedKeys s).getD i 0) ++
          [turnPrim ((sortedKeys s).getD i 0)
              ((sortedKeys s).getD
                ((i + (sortedKeys s).length - 1) % (sortedKeys s).length) 0),
           turnPrim ((sortedKeys s).getD i 0)
              ((sortedKeys s).getD ((i + 1) % (sortedKeys s).length) 0)] := by
  classical
  have hsort : List.insertionSort
      (fun a b => pyPrimListLe (lookupD s a) (lookupD s b)) (keysOf s) = sortedKeys s :=
    insertionSort_congr _ _ _ (fun a ha b hb => pyPrimListLe_iff_le hhead ha hb)
  have hksnd : (sortedKeys s).Nodup :=
    ((List.perm_insertionSort _ _).nodup_iff).mpr hnd
  constructor
  · simp only [handle_motion_model, hmm]
  · intro i hi
    have hprev : (i + (sortedKeys s).length - 1) % (sortedKeys s).length =
        (if i = 0 then (sortedKeys s).length - 1 else i - 1) := by
      rcases Nat.eq_zero_or_pos i with rfl | hip
      · rw [if_pos rfl, Nat.zero_add, Nat.mod_eq_of_lt (by omega)]
      · rw [if_neg (by omega)]
        have he : i + (sortedKeys s).length - 1 = (i - 1) + (sortedKeys s).length := by
          omega
        rw [he, Nat.add_mod_right, Nat.mod_eq_of_lt (by omega)]
    have hnext : (i + 1) % (sortedKeys s).length =
        (if i + 1 < (sortedKeys s).length then i + 1 else 0) := by
      by_cases hc : i + 1 < (sortedKeys s).length
      · rw [if_pos hc, Nat.mod_eq_of_lt hc]
      · rw [if_neg hc]
        have he : i + 1 = (sortedKeys s).length := by omega
        rw [he, Nat.mod_self]
    rw [hprev, hnext]
    have hnd2 : (((sortedKeys s).enum).map Prod.snd).Nodup := by
      rw [List.enum_map_snd]
      exact hksnd
    have hx : (i, (sortedKeys s).getD i 0) ∈ (sortedKeys s).enum := by
      rw [List.mem_iff_getElem]
      refine ⟨i, by rw [List.enum_length]; exact hi, ?_⟩
      rw [List.getElem_enum, List.getD_eq_getElem _ _ hi]
    have hfold := fold_appendAt2_lookup (fun (ik : ℕ × ℝ) => ik.2)
      (fun ik => turnPrim ik.2
        ((sortedKeys s).getD (if ik.1 = 0 then (sortedKeys s).length - 1 else ik.1 - 1) 0))
      (fun ik => turnPrim ik.2
        ((sortedKeys s).getD (if ik.1 + 1 < (sortedKeys s).length then ik.1 + 1 else 0) 0))
      ((sortedKeys s).enum) hnd2 s (i, (sortedKeys s).getD i 0) hx
    simp only [add_in_place_turns, hsort]
    exact hfold

/-- C2 witness: the theorem applied to the concrete two-key spanning set
`sW` at sorted position 0. -/
theorem c2_add_in_place_turns_witness :
    (keysOf sW).Nodup ∧
    (∀ e ∈ sW, ∃ p t, e.2 = p :: t ∧ Prim.start_angle p = e.1) ∧
    cfgD.motionModel = MotionModel.DIFF ∧
    lookupD (add_in_place_turns sW) ((sortedKeys sW).getD 0 0) =
      lookupD sW ((sortedKeys sW).getD 0 0) ++
        [turnPrim ((sortedKeys sW).getD 0 0)
            ((sortedKeys sW).getD
              ((0 + (sortedKeys sW).length - 1) % (sortedKeys sW).length) 0),
         turnPrim ((sortedKeys sW).getD 0 0)
            ((sortedKeys sW).getD ((0 + 1) % (sortedKeys sW).length) 0)] := by
  have hnd : (keysOf sW).Nodup := by
    simp [sW, keysOf]
  have hhead : ∀ e ∈ sW, ∃ p t, e.2 = p :: t ∧ Prim.start_angle p = e.1 := by
    intro e he
    rcases List.mem_cons.mp he with rfl | he2
    · exact ⟨mkP 0, [], rfl, rfl⟩
    · rcases List.mem_cons.mp he2 with rfl | he3
      · exact ⟨mkP 90, [], rfl, rfl⟩
      · cases he3
  have hlen : 0 < (sortedKeys sW).length := by
    rw [sortedKeys, List.length_insertionSort]
    simp [sW, keysOf]
  exact ⟨hnd, hhead, rfl,
    (c2_add_in_place_turns cfgD sW hnd hhead rfl).2 0 hlen⟩

/-- C10: both augmenters only append: keys are unchanged, every key's list
keeps its original records in place and gains exactly two records at the
end (two in-place turns for `add_in_place_turns`, the left and right
lateral motions for `add_horizontal_motions`); the DIFFERENTIAL output is
the ACKERMANN spanning set with the turns appended, and the
OMNIDIRECTIONAL output additionally appends the two lateral motions after
those. -/
theorem c10_augmenters_append_only (cfg : Config) (s : List (ℝ × List Prim))
    (hnd : (keysOf s).Nodup)
    (hhead : ∀ e ∈ s, ∃ p t, e.2 = p :: t ∧ Prim.start_angle p = e.1) :
    (keysOf (add_in_place_turns s) = keysOf s ∧
      keysOf (add_horizontal_motions cfg s) = keysOf s) ∧
    (∀ k ∈ keysOf s, ∃ q1 q2,
      lookupD (add_in_place_turns s) k = lookupD s k ++ [q1, q2]) ∧
    (∀ k ∈ keysOf s, lookupD (add_horizontal_motions cfg s) k =
      lookupD s k ++ [horizontal_left cfg k, horizontal_right cfg k]) ∧
    (cfg.motionModel = MotionModel.DIFF →
      handle_motion_model cfg s = Except.ok (add_in_place_turns s)) ∧
    (cfg.motionModel = MotionModel.OMNI →
      handle_motion_model cfg s =
        Except.ok (add_horizontal_motions cfg (add_in_place_turns s))) := by
  classical
  have hsort : List.insertionSort
      (fun a b => pyPrimListLe (lookupD s a) (lookupD s b)) (keysOf s) = sortedKeys s :=
    insertionSort_congr _ _ _ (fun a ha b hb => pyPrimListLe_iff_le hhead ha hb)
  have hksnd : (sortedKeys s).Nodup :=
    ((List.perm_insertionSort _ _).nodup_iff).mpr hnd
  have hmem : ∀ k, k ∈ sortedKeys s ↔ k ∈ keysOf s := fun k =>
    (List.perm_insertionSort _ _).mem_iff
  have hnd2 : (((sortedKeys s).enum).map Prod.snd).Nodup := by
    rw [List.enum_map_snd]
    exact hksnd
  refine ⟨⟨?_, ?_⟩, ?_, ?_, ?_, ?_⟩
  · simp only [add_in_place_turns, hsort]
    exact fold_appendAt2_keys (fun (ik : ℕ × ℝ) => ik.2) _ _ _ s
      (fun x hx => (hmem x.2).mp (by
        rw [← List.enum_map_snd (l := sortedKeys s)]
        exact List.mem_map_of_mem Prod.snd hx))
  · simp only [add_horizontal_motions]
    exact fold_appendAt2_keys (fun (k : ℝ) => k) _ _ _ s (fun x hx => hx)
  · intro k hk
    obtain ⟨i, hi, hgi⟩ := List.mem_iff_getElem.mp ((hmem k).mpr hk)
    have hx : (i, k) ∈ (sortedKeys s).enum := by
      rw [List.mem_iff_getElem]
      refine ⟨i, by rw [List.enum_length]; exact hi, ?_⟩
      rw [List.getElem_enum, hgi]
    refine ⟨turnPrim k
        ((sortedKeys s).getD (if i = 0 then (sortedKeys s).length - 1 else i - 1) 0),
      turnPrim k
        ((sortedKeys s).getD (if i + 1 < (sortedKeys s).length then i + 1 else 0) 0), ?_⟩
    simp only [add_in_place_turns, hsort]
    exact fold_appendAt2_lookup (fun (ik : ℕ × ℝ) => ik.2)
      (fun ik => turnPrim ik.2
        ((sortedKeys s).getD (if ik.1 = 0 then (sortedKeys s).length - 1 else ik.1 - 1) 0))
      (fun ik => turnPrim ik.2
        ((sortedKeys s).getD (if ik.1 + 1 < (sortedKeys s).length then ik.1 + 1 else 0) 0))
      ((sortedKeys s).enum) hnd2 s (i, k) hx
  · intro k hk
    simp only [add_horizontal_motions]
    exact fold_appendAt2_lookup (fun (z : ℝ) => z) (horizontal_left cfg)
      (horizontal_right cfg) (keysOf s)
      (by rw [show List.map (fun (z : ℝ) => z) (keysOf s) = keysOf s from List.map_id _]
          exact hnd) s k hk
  · intro hmm
    simp only [handle_motion_model, hmm]
  · intro hmm
    simp only [handle_motion_model, hmm]

/-- C10 witness: the theorem applied to the concrete two-key spanning set
`sW` under the OMNIDIRECTIONAL configuration, instantiated at key 0. -/
theorem c10_augmenters_append_only_witness :
    (keysOf sW).Nodup ∧
    (∀ e ∈ sW, ∃ p t, e.2 = p :: t ∧ Prim.start_angle p = e.1) ∧
    (0 : ℝ) ∈ keysOf sW ∧
    keysOf (add_in_place_turns sW) = keysOf sW ∧
    lookupD (add_horizontal_motions cfgO sW) 0 =
      lookupD sW 0 ++ [horizontal_left cfgO 0, horizontal_right cfgO 0] ∧
    handle_motion_model cfgO sW =
      Except.ok (add_horizontal_motions cfgO (add_in_place_turns sW)) := by
  have hnd : (keysOf sW).Nodup := by
    simp [sW, keysOf]
  have hhead : ∀ e ∈ sW, ∃ p t, e.2 = p :: t ∧ Prim.start_angle p = e.1 := by
    intro e he
    rcases List.mem_cons.mp he with rfl | he2
    · exact ⟨mkP 0, [], rfl, rfl⟩
    · rcases List.mem_cons.mp he2 with rfl | he3
      · exact ⟨mkP 90, [], rfl, rfl⟩
      · cases he3
  have hk0 : (0 : ℝ) ∈ keysOf sW := by
    simp [sW, keysOf]
  have H := c10_augmenters_append_only cfgO sW hnd hhead
  exact ⟨hnd, hhead, hk0, H.1.1, H.2.2.1 0 hk0, H.2.2.2.2 rfl⟩

theorem mem_vals_appendAt {p : Prim} {s : List (ℝ × List Prim)} {k : ℝ} {v : Prim}
    (h : p ∈ vals (appendAt s k v)) : p ∈ vals s ∨ p = v := by
  induction s with
  | nil =>
    simp [vals, appendAt] at h
    exact Or.inr h
  | cons e t ih =>
    obtain ⟨k0, l⟩ := e
    by_cases h0 : k0 = k
    · rw [appendAt, if_pos h0] at h
      simp only [vals, List.map_cons, List.flatten_cons, List.mem_append] at h ⊢
      rcases h with h1 | h1
      · rcases h1 with h2 | h2
        · exact Or.inl (Or.inl h2)
        · exact Or.inr (by simpa using h2)
      · exact Or.inl (Or.inr h1)
    · rw [appendAt, if_neg h0] at h
      simp only [vals, List.map_cons, List.flatten_cons, List.mem_append] at h ⊢
      rcases h with h1 | h1
      · exact Or.inl (Or.inl h1)
      · rcases ih (by simpa [vals] using h1) with h2 | h2
        · exact Or.inl (Or.inr (by simpa [vals] using h2))
        · exact Or.inr h2

theorem mem_vals_appendAt_mono {p : Prim} {s : List (ℝ × List Prim)} {k : ℝ} {v : Prim}
    (h : p ∈ vals s) : p ∈ vals (appendAt s k v) := by
  induction s with
  | nil => simp [vals] at h
  | cons e t ih =>
    obtain ⟨k0, l⟩ := e
    simp only [vals, List.map_cons, List.flatten_cons, List.mem_append] at h
    by_cases h0 : k0 = k
    · rw [appendAt, if_pos h0]
      simp only [vals, List.map_cons, List.flatten_cons, List.mem_append]
      rcases h with h1 | h1
      · exact Or.inl (Or.inl h1)
      · exact Or.inr h1
    · rw [appendAt, if_neg h0]
      simp only [vals, List.map_cons, List.flatten_cons, List.mem_append]
      rcases h with h1 | h1
      · exact Or.inl h1
      · exact Or.inr (ih (by simpa [vals] using h1))

theorem mem_vals_appendAt_self {s : List (ℝ × List Prim)} {k : ℝ} {v : Prim} :
    v ∈ vals (appendAt s k v) := by
  induction s with
  | nil => simp [vals, appendAt]
  | cons e t ih =>
    obtain ⟨k0, l⟩ := e
    by_cases h0 : k0 = k
    · rw [appendAt, if_pos h0]
      simp [vals]
    · rw [appendAt, if_neg h0]
      simp only [vals, List.map_cons, List.flatten_cons, List.mem_append]
      exact Or.inr (by simpa [vals] using ih)

theorem mem_keysOf_appendAt {x : ℝ} {s : List (ℝ × List Prim)} {k : ℝ} {v : Prim}
    (h : x ∈ keysOf (appendAt s k v)) : x ∈ keysOf s ∨ x = k := by
  induction s with
  | nil =>
    simp [keysOf, appendAt] at h
    exact Or.inr h
  | cons e t ih =>
    obtain ⟨k0, l⟩ := e
    by_cases h0 : k0 = k
    · rw [appendAt, if_pos h0] at h
      exact Or.inl h
    · rw [appendAt, if_neg h0] at h
      simp only [keysOf, List.map_cons, List.mem_cons] at h ⊢
      rcases h with h1 | h1
      · exact Or.inl (Or.inl h1)
      · rcases ih (by simpa [keysOf] using h1) with h2 | h2
        · exact Or.inl (Or.inr (by simpa [keysOf] using h2))
        · exact Or.inr h2

theorem mem_keysOf_appendAt_mono {x : ℝ} {s : List (ℝ × List Prim)} {k : ℝ} {v : Prim}
    (h : x ∈ keysOf s) : x ∈ keysOf (appendAt s k v) := by
  induction s with
  | nil => simp [keysOf] at h
  | cons e t ih =>
    obtain ⟨k0, l⟩ := e
    by_cases h0 : k0 = k
    · rw [appendAt, if_pos h0]
      exact h
    · rw [appendAt, if_neg h0]
      simp only [keysOf, List.map_cons, List.mem_cons] at h ⊢
      rcases h with h1 | h1
      · exact Or.inl h1
      · exact Or.inr (ih (by simpa [keysOf] using h1))

theorem mem_keysOf_appendAt_self {s : List (ℝ × List Prim)} {k : ℝ} {v : Prim} :
    k ∈ keysOf (appendAt s k v) := by
  induction s with
  | nil => simp [keysOf, appendAt]
  | cons e t ih =>
    obtain ⟨k0, l⟩ := e
    by_cases h0 : k0 = k
    · rw [appendAt, if_pos h0]
      simp [keysOf, h0]
    · rw [appendAt, if_neg h0]
      simp only [keysOf, List.map_cons, List.mem_cons]
      exact Or.inr (by simpa [keysOf] using ih)

theorem mem_vals_quadFold {p : Prim} {qs : List Prim} {s : List (ℝ × List Prim)}
    (h : p ∈ vals (qs.foldl (fun s2 q => appendAt s2 q.start_angle q) s)) :
    p ∈ vals s ∨ p ∈ qs := by
  induction qs generalizing s with
  | nil => exact Or.inl h
  | cons q t ih =>
    rw [List.foldl_cons] at h
    rcases ih h with h1 | h1
    · rcases mem_vals_appendAt h1 with h2 | h2
      · exact Or.inl h2
      · exact Or.inr (by simp [h2])
    · exact Or.inr (List.mem_cons_of_mem q h1)

theorem mem_vals_quadFold_mono {p : Prim} {qs : List Prim} {s : List (ℝ × List Prim)}
    (h : p ∈ vals s) :
    p ∈ vals (qs.foldl (fun s2 x => appendAt s2 x.start_angle x) s) := by
  induction qs generalizing s with
  | nil => exact h
  | cons a t ih =>
    rw [List.foldl_cons]
    exact ih (mem_vals_appendAt_mono h)

theorem mem_vals_quadFold_self {q : Prim} {qs : List Prim} {s : List (ℝ × List Prim)}
    (h : q ∈ qs) :
    q ∈ vals (qs.foldl (fun s2 x => appendAt s2 x.start_angle x) s) := by
  induction qs generalizing s with
  | nil => cases h
  | cons a t ih =>
    rw [List.foldl_cons]
    rcases List.mem_cons.mp h with rfl | h1
    · exact mem_vals_quadFold_mono mem_vals_appendAt_self
    · exact ih h1

theorem mem_keysOf_quadFold_mono {x : ℝ} {qs : List Prim} {s : List (ℝ × List Prim)}
    (h : x ∈ keysOf s) :
    x ∈ keysOf (qs.foldl (fun s2 q => appendAt s2 q.start_angle q) s) := by
  induction qs generalizing s with
  | nil => exact h
  | cons a t ih =>
    rw [List.foldl_cons]
    exact ih (mem_keysOf_appendAt_mono h)

theorem mem_keysOf_quadFold_self {q : Prim} {qs : List Prim} {s : List (ℝ × List Prim)}
    (h : q ∈ qs) :
    q.start_angle ∈ keysOf (qs.foldl (fun s2 x => appendAt s2 x.start_angle x) s) := by
  induction qs generalizing s with
  | nil => cases h
  | cons a t ih =>
    rw [List.foldl_cons]
    rcases List.mem_cons.mp h with rfl | h1
    · exact mem_keysOf_quadFold_mono mem_keysOf_appendAt_self
    · exact ih h1

theorem mem_keysOf_quadFold {x : ℝ} {qs : List Prim} {s : List (ℝ × List Prim)}
    (h : x ∈ keysOf (qs.foldl (fun s2 q => appendAt s2 q.start_angle q) s)) :
    x ∈ keysOf s ∨ ∃ q ∈ qs, x = q.start_angle := by
  induction qs generalizing s with
  | nil => exact Or.inl h
  | cons q t ih =>
    rw [List.foldl_cons] at h
    rcases ih h with h1 | ⟨q2, hq2, h2⟩
    · rcases mem_keysOf_appendAt h1 with h2 | h2
      · exact Or.inl h2
      · exact Or.inr ⟨q, List.mem_cons_self q t, h2⟩
    · exact Or.inr ⟨q2, List.mem_cons_of_mem q hq2, h2⟩

theorem foldlM_option_preserve {α : Type}
    (f : List (ℝ × List Prim) → α → Option (List (ℝ × List Prim)))
    (C : List (ℝ × List Prim) → Prop) (L : List α) :
    ∀ s out, C s →
      (∀ a ∈ L, ∀ x y, C x → f x a = some y → C y) →
      List.foldlM f s L = some out → C out := by
  induction L with
  | nil =>
    intro s out hs _ hres
    rw [List.foldlM_nil] at hres
    obtain rfl := Option.some.inj hres
    exact hs
  | cons a t ih =>
    intro s out hs hstep hres
    rw [List.foldlM_cons] at hres
    obtain ⟨y, hy, hres2⟩ := Option.bind_eq_some.mp hres
    exact ih y out (hstep a (List.mem_cons_self a t) s y hs hy)
      (fun b hb => hstep b (List.mem_cons_of_mem a hb)) hres2

theorem addQuadRecords_eq {cfg : Config} {gen : CurveGen} {k : ℝ}
    {s : List (ℝ × List Prim)} {r : (ℝ × ℝ) × ℝ} {y : List (ℝ × List Prim)}
    (h : addQuadRecords cfg gen k s r = some y) :
    ∃ qs, quad_records cfg gen k r.1 r.2 = some qs ∧
      y = qs.foldl (fun s2 q => appendAt s2 q.start_angle q) s := by
  unfold addQuadRecords at h
  cases hq : quad_records cfg gen k r.1 r.2 with
  | none =>
    rw [hq] at h
    cases h
  | some qs =>
    rw [hq] at h
    exact ⟨qs, rfl, (Option.some.inj h).symm⟩

theorem search_step_snd_sub {cfg : Config} {gen : CurveGen} {sh : ℝ}
    {acc : List (ℝ × ℝ × ℝ) × List ((ℝ × ℝ) × ℝ)} {tp : ℝ × ℝ} {th : ℝ}
    {r : (ℝ × ℝ) × ℝ} (h : r ∈ (search_step cfg gen sh acc tp th).2) :
    r ∈ acc.2 ∨ r = (tp, th) := by
  unfold search_step at h
  cases hg : gen tp sh th (0.1 * cfg.gridSeparation) with
  | none =>
    rw [hg] at h
    exact Or.inl h
  | some traj =>
    rw [hg] at h
    have h2 : r ∈ (if is_minimal_path cfg traj.path acc.1 = true then
        (acc.1 ++ [(tp.1, tp.2, deg2rad th)], acc.2 ++ [(tp, th)]) else acc).2 := h
    by_cases hm : is_minimal_path cfg traj.path acc.1 = true
    · rw [if_pos hm] at h2
      rcases List.mem_append.mp h2 with h1 | h1
      · exact Or.inl h1
      · exact Or.inr (by simpa using h1)
    · rw [if_neg hm] at h2
      exact Or.inl h2

theorem targets_fold_snd_sub {cfg : Config} {gen : CurveGen} {sh : ℝ} {tp : ℝ × ℝ}
    (L : List ℝ) :
    ∀ acc r, r ∈ ((L.foldl (fun a2 th => search_step cfg gen sh a2 tp th) acc)).2 →
      r ∈ acc.2 ∨ ∃ th ∈ L, r.2 = th := by
  induction L with
  | nil => exact fun acc r h => Or.inl h
  | cons a t ih =>
    intro acc r h
    rw [List.foldl_cons] at h
    rcases ih _ r h with h1 | ⟨th, hth, h2⟩
    · rcases search_step_snd_sub h1 with h2 | h2
      · exact Or.inl h2
      · exact Or.inr ⟨a, List.mem_cons_self a t, by rw [h2]⟩
    · exact Or.inr ⟨th, List.mem_cons_of_mem a hth, h2⟩

theorem search_level_snd_sub {cfg : Config} {gen : CurveGen} {sh : ℝ}
    {targets : List ℝ} {level : ℤ} :
    ∀ acc r, r ∈ (search_level cfg gen sh targets acc level).2 →
      r ∈ acc.2 ∨ ∃ th ∈ targets, r.2 = th := by
  unfold search_level
  generalize get_coords_at_level cfg.gridSeparation level = P
  induction P with
  | nil => exact fun acc r h => Or.inl h
  | cons tp t ih =>
    intro acc r h
    rw [List.foldl_cons] at h
    rcases ih _ r h with h1 | h1
    · rcases targets_fold_snd_sub targets acc r h1 with h2 | h2
      · exact Or.inl h2
      · exact Or.inr h2
    · exact Or.inr h1

theorem search_start_snd {cfg : Config} {gen : CurveGen} {sh : ℝ} {r : (ℝ × ℝ) × ℝ}
    (h : r ∈ search_start cfg gen sh) :
    ∃ th ∈ target_headings cfg sh, r.2 = th := by
  unfold search_start at h
  have hgen : ∀ (L : List ℤ) acc,
      r ∈ (L.foldl (search_level cfg gen sh (target_headings cfg sh)) acc).2 →
      r ∈ acc.2 ∨ ∃ th ∈ target_headings cfg sh, r.2 = th := by
    intro L
    induction L with
    | nil => exact fun acc h2 => Or.inl h2
    | cons lv t ih =>
      intro acc h2
      rw [List.foldl_cons] at h2
      rcases ih _ h2 with h3 | h3
      · exact search_level_snd_sub _ r h3
      · exact Or.inr h3
  rcases hgen (levelsList cfg) ([], []) h with h1 | h1
  · cases h1
  · exact h1

theorem target_headings_bound {cfg : Config} {sh th : ℝ}
    (h : th ∈ target_headings cfg sh) : |sh - th| ≤ 90 := by
  unfold target_headings at h
  obtain ⟨_, hdec⟩ := List.mem_filter.mp h
  exact of_decide_eq_true hdec

theorem initial_headings_bound {cfg : Config} {k : ℝ}
    (h : k ∈ initial_headings cfg) : 0 ≤ k ∧ k < 90 := by
  unfold initial_headings at h
  have h2 := (List.perm_insertionSort _ _).subset h
  obtain ⟨_, hdec⟩ := List.mem_filter.mp h2
  exact of_decide_eq_true hdec

/-- The per-entry pipeline invariant on a single-quadrant set: the key is a
first-quadrant heading and every stored end angle is within 90 degrees of
it. -/
def EntryOK (e : ℝ × List ((ℝ × ℝ) × ℝ)) : Prop :=
  0 ≤ e.1 ∧ e.1 ≤ 90 ∧ ∀ r ∈ e.2, |e.1 - r.2| ≤ 90

theorem appendAt_entryOK {s : List (ℝ × List ((ℝ × ℝ) × ℝ))} {k : ℝ}
    {v : (ℝ × ℝ) × ℝ} (hs : ∀ e ∈ s, EntryOK e) (hk : 0 ≤ k ∧ k ≤ 90)
    (hv : |k - v.2| ≤ 90) : ∀ e ∈ appendAt s k v, EntryOK e := by
  induction s with
  | nil =>
    intro e he
    rw [appendAt] at he
    rcases List.mem_cons.mp he with rfl | he2
    · refine ⟨hk.1, hk.2, ?_⟩
      intro r hr
      rcases List.mem_cons.mp hr with rfl | hr2
      · exact hv
      · cases hr2
    · cases he2
  | cons e0 t ih =>
    obtain ⟨k0, l⟩ := e0
    intro e he
    by_cases h0 : k0 = k
    · rw [appendAt, if_pos h0] at he
      rcases List.mem_cons.mp he with rfl | he2
      · obtain ⟨hb1, hb2, hb3⟩ := hs (k0, l) (List.mem_cons_self _ _)
        refine ⟨hb1, hb2, ?_⟩
        intro r hr
        rcases List.mem_append.mp hr with hr2 | hr2
        · exact hb3 r hr2
        · rw [show r = v by simpa using hr2, h0]
          exact hv
      · exact hs e (List.mem_cons_of_mem _ he2)
    · rw [appendAt, if_neg h0] at he
      rcases List.mem_cons.mp he with rfl | he2
      · exact hs (k0, l) (List.mem_cons_self _ _)
      · exact ih (fun e2 he2b => hs e2 (List.mem_cons_of_mem _ he2b)) e he2

theorem single_quadrant_entryOK (cfg : Config) (gen : CurveGen) :
    ∀ e ∈ single_quadrant_set cfg gen, EntryOK e := by
  unfold single_quadrant_set
  have hrec : ∀ (k : ℝ), 0 ≤ k ∧ k ≤ 90 →
      ∀ (l : List ((ℝ × ℝ) × ℝ)), (∀ r ∈ l, |k - r.2| ≤ 90) →
      ∀ (s : List (ℝ × List ((ℝ × ℝ) × ℝ))), (∀ e ∈ s, EntryOK e) →
      ∀ e ∈ l.foldl (fun s2 r => appendAt s2 k r) s, EntryOK e := by
    intro k hk l
    induction l with
    | nil => exact fun _ s hs e he => hs e he
    | cons r t ih =>
      intro hl s hs
      rw [List.foldl_cons]
      exact ih (fun r2 hr2 => hl r2 (List.mem_cons_of_mem r hr2)) _
        (appendAt_entryOK hs hk (hl r (List.mem_cons_self r t)))
  have hstarts : ∀ (ks : List ℝ), (∀ k ∈ ks, 0 ≤ k ∧ k < 90) →
      ∀ (s : List (ℝ × List ((ℝ × ℝ) × ℝ))), (∀ e ∈ s, EntryOK e) →
      ∀ e ∈ ks.foldl
        (fun s k => (search_start cfg gen k).foldl (fun s2 r => appendAt s2 k r) s) s,
        EntryOK e := by
    intro ks
    induction ks with
    | nil => exact fun _ s hs e he => hs e he
    | cons k t ih =>
      intro hks s hs
      rw [List.foldl_cons]
      refine ih (fun k2 hk2 => hks k2 (List.mem_cons_of_mem k hk2)) _ ?_
      refine hrec k ⟨(hks k (List.mem_cons_self k t)).1,
        le_of_lt (hks k (List.mem_cons_self k t)).2⟩ _ ?_ s hs
      intro r hr
      obtain ⟨th, hth, h2⟩ := search_start_snd hr
      rw [h2]
      exact target_headings_bound hth
  exact hstarts (initial_headings cfg) (fun k hk => initial_headings_bound hk) []
    (fun e he => absurd he (List.not_mem_nil e))

theorem mem_setKey {β : Type} {e : ℝ × List β} {s : List (ℝ × List β)} {k : ℝ}
    {v : List β} (h : e ∈ setKey s k v) : e ∈ s ∨ e = (k, v) := by
  induction s with
  | nil =>
    rw [setKey] at h
    rcases List.mem_cons.mp h with rfl | h2
    · exact Or.inr rfl
    · cases h2
  | cons e0 t ih =>
    obtain ⟨k0, l⟩ := e0
    by_cases h0 : k0 = k
    · rw [setKey, if_pos h0] at h
      rcases List.mem_cons.mp h with rfl | h2
      · exact Or.inr (by rw [h0])
      · exact Or.inl (List.mem_cons_of_mem _ h2)
    · rw [setKey, if_neg h0] at h
      rcases List.mem_cons.mp h with rfl | h2
      · exact Or.inl (List.mem_cons_self _ _)
      · rcases ih h2 with h3 | h3
        · exact Or.inl (List.mem_cons_of_mem _ h3)
        · exact Or.inr h3

theorem mem_ensureKey {β : Type} {e : ℝ × List β} {s : List (ℝ × List β)} {k : ℝ}
    (h : e ∈ ensureKey s k) : e ∈ s ∨ e = (k, ([] : List β)) := by
  unfold ensureKey at h
  by_cases h0 : k ∈ s.map Prod.fst
  · rw [if_pos h0] at h
    exact Or.inl h
  · rw [if_neg h0] at h
    rcases List.mem_append.mp h with h1 | h1
    · exact Or.inl h1
    · exact Or.inr (by simpa using h1)

theorem lookupD_eq_nil {β : Type} {s : List (ℝ × List β)} {k : ℝ}
    (h : k ∉ keysOf s) : lookupD s k = ([] : List β) := by
  induction s with
  | nil => rfl
  | cons e t ih =>
    obtain ⟨k0, l⟩ := e
    rw [lookupD, if_neg (fun he => h (by simp [keysOf, he]))]
    exact ih (fun he => h (by simp [keysOf]; exact Or.inr (by simpa [keysOf] using he)))

theorem angDistDeg_self (a : ℝ) : angDistDeg a a = 0 := by
  rw [angDistDeg, if_pos (by norm_num : |a - a| ≤ 180)]
  simp

theorem quad_records_arcConsistent {cfg : Config} {gen : CurveGen} {k : ℝ} {pt : ℝ × ℝ}
    {e : ℝ} {qs : List Prim} (hq : quad_records cfg gen k pt e = some qs)
    (h0 : 0 ≤ k) (h90 : k ≤ 90) (hd : |k - e| ≤ 90) :
    ∀ q ∈ qs, arcConsistent q := by
  have hdd := abs_le.mp hd
  unfold quad_records at hq
  cases hgen : gen pt k e cfg.gridSeparation with
  | none =>
    rw [hgen] at hq
    cases hq
  | some t =>
    rw [hgen] at hq
    dsimp only at hq
    obtain rfl := Option.some.inj hq
    intro q hmem
    split_ifs at hmem with hc1 hc2 hc3 hc4
    · obtain ⟨rfl, rfl⟩ := hc1
      simp only [List.mem_cons, List.not_mem_nil, or_false] at hmem
      rcases hmem with rfl | rfl
      · refine ⟨by dsimp only; ring, ?_⟩
        dsimp only
        rw [angDistDeg_self]
        norm_num
      · refine ⟨by dsimp only; ring, ?_⟩
        dsimp only
        rw [angDistDeg_self]
        norm_num
    · obtain ⟨rfl, rfl⟩ := hc2
      simp only [List.mem_cons, List.not_mem_nil, or_false] at hmem
      rcases hmem with rfl | rfl
      · refine ⟨by dsimp only; ring, ?_⟩
        dsimp only
        rw [angDistDeg_self]
        norm_num
      · refine ⟨by dsimp only; ring, ?_⟩
        dsimp only
        rw [angDistDeg_self]
        norm_num
    · subst hc3
      have he : |e| ≤ 90 := by
        have h2 := hd
        rw [zero_sub, abs_neg] at h2
        exact h2
      have hee := abs_le.mp he
      have hne : e ≠ 0 := by
        intro h2
        exact hc1 ⟨rfl, h2⟩
      simp only [List.mem_cons, List.not_mem_nil, or_false] at hmem
      rcases hmem with rfl | rfl | rfl | rfl
      · refine ⟨by dsimp only; ring, ?_⟩
        dsimp only
        rw [show angDistDeg 0 e = |0 - e| from
          by rw [angDistDeg, if_pos (by rw [zero_sub, abs_neg]; linarith)]]
      · refine ⟨by dsimp only; ring, ?_⟩
        dsimp only
        have hAD : angDistDeg (-180) (180 - e) = |(0 : ℝ) - e| := by
          rw [angDistDeg, show (-180 : ℝ) - (180 - e) = -(360 - e) by ring, abs_neg,
            abs_of_nonneg (by linarith : (0 : ℝ) ≤ 360 - e),
            if_neg (by linarith : ¬(360 - e ≤ 180)),
            show (360 : ℝ) - (360 - e) = e by ring, zero_sub, abs_neg]
        rw [hAD]
      · refine ⟨by dsimp only; ring, ?_⟩
        dsimp only
        have hAD : angDistDeg (-180) (e - 180) = |(0 : ℝ) - e| := by
          rw [angDistDeg, show (-180 : ℝ) - (e - 180) = -e by ring, abs_neg,
            if_pos (by linarith : |e| ≤ 180), zero_sub, abs_neg]
        rw [hAD]
      · refine ⟨by dsimp only; ring, ?_⟩
        dsimp only
        have hAD : angDistDeg 0 (-e) = |(0 : ℝ) - e| := by
          rw [angDistDeg, show (0 : ℝ) - -e = e by ring,
            if_pos (by linarith : |e| ≤ 180), zero_sub, abs_neg]
        rw [hAD]
    · subst hc4
      have hk : |k| ≤ 90 := by
        have h2 := hd
        rw [sub_zero] at h2
        exact h2
      have hkk := abs_le.mp hk
      have hne : k ≠ 0 := by
        intro h2
        exact hc1 ⟨h2, rfl⟩
      simp only [List.mem_cons, List.not_mem_nil, or_false] at hmem
      rcases hmem with rfl | rfl | rfl | rfl
      · refine ⟨by dsimp only; ring, ?_⟩
        dsimp only
        rw [show angDistDeg k 0 = |k - 0| from
          by rw [angDistDeg, if_pos (by rw [sub_zero]; linarith)]]
      · refine ⟨by dsimp only; ring, ?_⟩
        dsimp only
        have hAD : angDistDeg (180 - k) (-180) = |k - (0 : ℝ)| := by
          rw [angDistDeg, show (180 : ℝ) - k - -180 = 360 - k by ring,
            abs_of_nonneg (by linarith : (0 : ℝ) ≤ 360 - k),
            if_neg (by linarith : ¬(360 - k ≤ 180)),
            show (360 : ℝ) - (360 - k) = k by ring, sub_zero]
        rw [hAD]
      · refine ⟨by dsimp only; ring, ?_⟩
        dsimp only
        have hAD : angDistDeg (k - 180) (-180) = |k - (0 : ℝ)| := by
          rw [angDistDeg, show k - (180 : ℝ) - -180 = k by ring,
            if_pos (by linarith : |k| ≤ 180), sub_zero]
        rw [hAD]
      · refine ⟨by dsimp only; ring, ?_⟩
        dsimp only
        have hAD : angDistDeg (-k) 0 = |k - (0 : ℝ)| := by
          rw [angDistDeg, show (-k : ℝ) - 0 = -k by ring, abs_neg,
            if_pos (by linarith : |k| ≤ 180), sub_zero]
        rw [hAD]
    · simp only [List.mem_cons, List.not_mem_nil, or_false] at hmem
      rcases hmem with rfl | rfl | rfl | rfl
      · refine ⟨by dsimp only; ring, ?_⟩
        dsimp only
        rw [show angDistDeg k e = |k - e| from
          by rw [angDistDeg, if_pos (by linarith)]]
      · refine ⟨by dsimp only; ring, ?_⟩
        dsimp only
        have hAD : angDistDeg (180 - k) (180 - e) = |k - e| := by
          rw [angDistDeg, show (180 : ℝ) - k - (180 - e) = -(k - e) by ring, abs_neg,
            if_pos (by linarith)]
        rw [hAD]
      · refine ⟨by dsimp only; ring, ?_⟩
        dsimp only
        have hAD : angDistDeg (k - 180) (e - 180) = |k - e| := by
          rw [angDistDeg, show k - (180 : ℝ) - (e - 180) = k - e by ring,
            if_pos (by linarith)]
        rw [hAD]
      · refine ⟨by dsimp only; ring, ?_⟩
        dsimp only
        have hAD : angDistDeg (-k) (-e) = |k - e| := by
          rw [angDistDeg, show (-k : ℝ) - -e = -(k - e) by ring, abs_neg,
            if_pos (by linarith)]
        rw [hAD]

theorem quad_records_start_bounds {cfg : Config} {gen : CurveGen} {k : ℝ} {pt : ℝ × ℝ}
    {e : ℝ} {qs : List Prim} (hq : quad_records cfg gen k pt e = some qs)
    (h0 : 0 ≤ k) (h90 : k ≤ 90) :
    ∀ q ∈ qs, -180 ≤ q.start_angle ∧ q.start_angle < 180 := by
  unfold quad_records at hq
  cases hgen : gen pt k e cfg.gridSeparation with
  | none =>
    rw [hgen] at hq
    cases hq
  | some t =>
    rw [hgen] at hq
    dsimp only at hq
    obtain rfl := Option.some.inj hq
    intro q hmem
    split_ifs at hmem with hc1 hc2 hc3 hc4
    · obtain ⟨rfl, rfl⟩ := hc1
      simp only [List.mem_cons, List.not_mem_nil, or_false] at hmem
      rcases hmem with rfl | rfl <;>
        exact ⟨by dsimp only; norm_num, by dsimp only; norm_num⟩
    · obtain ⟨rfl, rfl⟩ := hc2
      simp only [List.mem_cons, List.not_mem_nil, or_false] at hmem
      rcases hmem with rfl | rfl <;>
        exact ⟨by dsimp only; norm_num, by dsimp only; norm_num⟩
    · subst hc3
      simp only [List.mem_cons, List.not_mem_nil, or_false] at hmem
      rcases hmem with rfl | rfl | rfl | rfl <;>
        exact ⟨by dsimp only; norm_num, by dsimp only; norm_num⟩
    · subst hc4
      have hne : k ≠ 0 := fun h2 => hc1 ⟨h2, rfl⟩
      have hkpos : 0 < k := lt_of_le_of_ne h0 (Ne.symm hne)
      simp only [List.mem_cons, List.not_mem_nil, or_false] at hmem
      rcases hmem with rfl | rfl | rfl | rfl <;>
        exact ⟨by dsimp only; linarith, by dsimp only; linarith⟩
    · have hkne : k ≠ 0 := hc3
      have hkpos : 0 < k := lt_of_le_of_ne h0 (Ne.symm hkne)
      simp only [List.mem_cons, List.not_mem_nil, or_false] at hmem
      rcases hmem with rfl | rfl | rfl | rfl <;>
        exact ⟨by dsimp only; linarith, by dsimp only; linarith⟩

theorem mem_vals_fold_appendAt2 {α : Type} (key : α → ℝ) (F1 F2 : α → Prim)
    (L : List α) (s : List (ℝ × List Prim)) (p : Prim)
    (h : p ∈ vals (L.foldl (fun acc z =>
      appendAt (appendAt acc (key z) (F1 z)) (key z) (F2 z)) s)) :
    p ∈ vals s ∨ ∃ x ∈ L, p = F1 x ∨ p = F2 x := by
  induction L generalizing s with
  | nil => exact Or.inl h
  | cons a t ih =>
    rw [List.foldl_cons] at h
    rcases ih _ h with h1 | ⟨x, hx, h2⟩
    · rcases mem_vals_appendAt h1 with h2 | h2
      · rcases mem_vals_appendAt h2 with h3 | h3
        · exact Or.inl h3
        · exact Or.inr ⟨a, List.mem_cons_self a t, Or.inl h3⟩
      · exact Or.inr ⟨a, List.mem_cons_self a t, Or.inr h2⟩
    · exact Or.inr ⟨x, List.mem_cons_of_mem a hx, h2⟩

theorem turnPrim_arcConsistent (a b : ℝ) : arcConsistent (turnPrim a b) := by
  unfold arcConsistent turnPrim
  constructor
  · dsimp only
    ring
  · dsimp only
    ring

theorem horizontal_left_arcConsistent (cfg : Config) (k : ℝ) :
    arcConsistent (horizontal_left cfg k) := by
  unfold arcConsistent horizontal_left
  constructor
  · dsimp only
    ring
  · dsimp only
    ring

theorem horizontal_right_arcConsistent (cfg : Config) (k : ℝ) :
    arcConsistent (horizontal_right cfg k) := by
  unfold arcConsistent horizontal_right
  constructor
  · dsimp only
    ring
  · dsimp only
    ring

theorem s1_entryOK (cfg : Config) (gen : CurveGen) :
    ∀ e ∈ setKey (ensureKey (single_quadrant_set cfg gen) 0) 90
      ((lookupD (ensureKey (single_quadrant_set cfg gen) 0) 0).map
        fun r => ((r.1.2, r.1.1), 90 - r.2)), EntryOK e := by
  intro e he
  have hs0 : ∀ e2 ∈ ensureKey (single_quadrant_set cfg gen) 0, EntryOK e2 := by
    intro e2 he2
    rcases mem_ensureKey he2 with h2 | rfl
    · exact single_quadrant_entryOK cfg gen e2 h2
    · exact ⟨le_refl 0, by norm_num, fun r hr => absurd hr (List.not_mem_nil r)⟩
  rcases mem_setKey he with h1 | rfl
  · exact hs0 e h1
  · refine ⟨by norm_num, le_refl 90, ?_⟩
    intro r hr
    obtain ⟨r0, hr0, rfl⟩ := List.mem_map.mp hr
    have hb : |(0 : ℝ) - r0.2| ≤ 90 := by
      by_cases hmem : (0 : ℝ) ∈ keysOf (ensureKey (single_quadrant_set cfg gen) 0)
      · obtain ⟨e2, he2, hek, hl⟩ := lookupD_head hmem
        rw [hl] at hr0
        have h3 := (hs0 e2 he2).2.2 r0 hr0
        rw [hek] at h3
        exact h3
      · rw [lookupD_eq_nil hmem] at hr0
        cases hr0
    dsimp only
    rw [show (90 : ℝ) - (90 - r0.2) = -(0 - r0.2) by ring, abs_neg]
    exact hb

theorem generate_arcConsistent (cfg : Config) (gen : CurveGen) :
    ∀ out, generate_minimal_spanning_set cfg gen = some out →
      ∀ p ∈ vals out, arcConsistent p := by
  intro out hout
  unfold generate_minimal_spanning_set create_complete_minimal_spanning_set at hout
  dsimp only at hout
  refine foldlM_option_preserve _ (fun s => ∀ q ∈ vals s, arcConsistent q) _ _ out
    (by intro q hq; simp [vals] at hq) ?_ hout
  intro entry hentry x y hx hstep
  have hE := s1_entryOK cfg gen entry hentry
  refine foldlM_option_preserve _ (fun s => ∀ q ∈ vals s, arcConsistent q) _ _ y hx
    ?_ hstep
  intro r hr x2 y2 hx2 hstep2
  obtain ⟨qs, hq, rfl⟩ := addQuadRecords_eq hstep2
  intro q hq2
  rcases mem_vals_quadFold hq2 with h1 | h1
  · exact hx2 q h1
  · have hb : |entry.1 - r.2| ≤ 90 := hE.2.2 r hr
    exact quad_records_arcConsistent hq hE.1 hE.2.1 hb q h1

/-- C3 (amended): for every primitive record in the final output,
`totalLength = arcLength + straightLength`, and
`arcLength = 2π·radius·d/360` where `d` is the shortest-arc angular
distance between the record's own start and end headings (the plain
absolute heading difference is wrong for the reflected quadrants whose
headings wrap past ±180). -/
theorem c3_length_consistency_amended (cfg : Config) (gen : CurveGen) :
    ∀ p ∈ allPrims (runGenerator cfg gen), arcConsistent p := by
  intro p hp
  unfold runGenerator at hp
  cases hg : generate_minimal_spanning_set cfg gen with
  | none =>
    rw [hg] at hp
    simp [allPrims] at hp
  | some mid =>
    rw [hg] at hp
    have hmid : ∀ q ∈ vals mid, arcConsistent q :=
      generate_arcConsistent cfg gen mid hg
    have hturnvals : ∀ q ∈ vals (add_in_place_turns mid), arcConsistent q := by
      intro q hq
      simp only [add_in_place_turns] at hq
      rcases mem_vals_fold_appendAt2 _ _ _ _ _ _ hq with h1 | ⟨x, _, h2 | h2⟩
      · exact hmid q h1
      · rw [h2]
        exact turnPrim_arcConsistent _ _
      · rw [h2]
        exact turnPrim_arcConsistent _ _
    cases hM : cfg.motionModel with
    | ACKERMANN =>
      simp only [handle_motion_model, hM] at hp
      exact hmid p hp
    | DIFF =>
      simp only [handle_motion_model, hM] at hp
      exact hturnvals p hp
    | OMNI =>
      simp only [handle_motion_model, hM] at hp
      have hp2 : p ∈ vals (add_horizontal_motions cfg (add_in_place_turns mid)) := hp
      simp only [add_horizontal_motions] at hp2
      rcases mem_vals_fold_appendAt2 _ _ _ _ _ _ hp2 with h1 | ⟨x, _, h2 | h2⟩
      · exact hturnvals p h1
      · rw [h2]
        exact horizontal_left_arcConsistent cfg x
      · rw [h2]
        exact horizontal_right_arcConsistent cfg x
    | OTHER =>
      simp only [handle_motion_model, hM] at hp
      simp [allPrims, Except.toOption] at hp

theorem generate_heading_bounds (cfg : Config) (gen : CurveGen) :
    ∀ out, generate_minimal_spanning_set cfg gen = some out →
      (∀ x ∈ keysOf out, -180 ≤ x ∧ x < 180) ∧
      ∀ q ∈ vals out, -180 ≤ q.start_angle ∧ q.start_angle < 180 := by
  intro out hout
  unfold generate_minimal_spanning_set create_complete_minimal_spanning_set at hout
  dsimp only at hout
  refine foldlM_option_preserve _
    (fun s2 => (∀ x ∈ keysOf s2, -180 ≤ x ∧ x < 180) ∧
      ∀ q ∈ vals s2, -180 ≤ q.start_angle ∧ q.start_angle < 180) _ _ out
    ⟨by intro x hx; simp [keysOf] at hx, by intro q hq; simp [vals] at hq⟩ ?_ hout
  intro entry hentry x y hx hstep
  have hE := s1_entryOK cfg gen entry hentry
  refine foldlM_option_preserve _
    (fun s2 => (∀ x2 ∈ keysOf s2, -180 ≤ x2 ∧ x2 < 180) ∧
      ∀ q ∈ vals s2, -180 ≤ q.start_angle ∧ q.start_angle < 180) _ _ y hx ?_ hstep
  intro r hr x2 y2 hx2 hstep2
  obtain ⟨qs, hq, rfl⟩ := addQuadRecords_eq hstep2
  have hqrec := quad_records_start_bounds hq hE.1 hE.2.1
  constructor
  · intro x3 hx3
    rcases mem_keysOf_quadFold hx3 with h1 | ⟨q2, hq2, rfl⟩
    · exact hx2.1 x3 h1
    · exact hqrec q2 hq2
  · intro q3 hq3
    rcases mem_vals_quadFold hq3 with h1 | h1
    · exact hx2.2 q3 h1
    · exact hqrec q3 h1

/-- C6 (amended): for every configuration and every curve generator, when
the symmetry expander applied to the search's single-quadrant set does
not crash, every start-heading key and every record start heading of its
output lies in the half-open interval `[-180, 180)`; in particular `+180`
never occurs as a key, so no start heading is represented by both `+180`
and `-180`. This is the part of the claimed invariant that survives: the
claimed interval `(-180, 180]` is wrong at its lower end because the
expander deliberately emits the key `-180` for the quadrant-2/3
reflections of a 0-degree start, and the record end headings satisfy no
canonical interval at all (a reachable `(start 0, end -45)` record is
reflected to end headings `225` and `-225`, as the counterexample
exhibits). -/
theorem c6_heading_range_amended (cfg : Config) (gen : CurveGen)
    (out : List (ℝ × List Prim))
    (hout : generate_minimal_spanning_set cfg gen = some out) :
    (∀ x ∈ keysOf out, -180 ≤ x ∧ x < 180) ∧
    (∀ p ∈ vals out, -180 ≤ p.start_angle ∧ p.start_angle < 180) ∧
    ¬ ((180 : ℝ) ∈ keysOf out ∧ (-180 : ℝ) ∈ keysOf out) := by
  obtain ⟨hk, hv⟩ := generate_heading_bounds cfg gen out hout
  refine ⟨hk, hv, fun h => ?_⟩
  have := (hk 180 h.1).2
  linarith

theorem atan2_one_one : atan2 (1 : ℝ) 1 = π / 4 := by
  unfold atan2
  rw [if_pos (by norm_num : (0 : ℝ) < 1)]
  norm_num [Real.arctan_one]

theorem val_45 : rad2deg (atan2 (1 : ℝ) 1) = 45 := by
  rw [atan2_one_one]
  unfold rad2deg
  rw [div_eq_iff Real.pi_ne_zero]
  ring

theorem val_neg45 : rad2deg (atan2 (-1 : ℝ) 1) = -45 := by
  rw [show atan2 (-1 : ℝ) 1 = -atan2 1 1 from atan2_neg_y (by norm_num), atan2_one_one]
  unfold rad2deg
  rw [div_eq_iff Real.pi_ne_zero]
  ring

theorem val_135 : rad2deg (atan2 (1 : ℝ) (-1)) = 135 := by
  rw [show atan2 (1 : ℝ) (-1) = π - atan2 1 1 from atan2_neg_x_pos (by norm_num),
    atan2_one_one]
  unfold rad2deg
  rw [div_eq_iff Real.pi_ne_zero]
  ring

theorem val_neg135 : rad2deg (atan2 (-1 : ℝ) (-1)) = -135 := by
  rw [show atan2 (-1 : ℝ) (-1) = -π - atan2 (-1) 1 from atan2_neg_x_neg (by norm_num),
    show atan2 (-1 : ℝ) 1 = -atan2 1 1 from atan2_neg_y (by norm_num), atan2_one_one]
  unfold rad2deg
  rw [div_eq_iff Real.pi_ne_zero]
  ring

theorem ghd_eight :
    get_heading_discretization 8 = [-135, 135, -90, 90, 180, 0, -45, 45] := by
  unfold get_heading_discretization
  rw [show max_val 8 = 1 from by simpa using max_val_eight 1,
    show compassCells 1 =
      [(-1, -1), (-1, 1), (0, -1), (0, 1), (-1, 0), (1, 0), (1, -1), (1, 1)] from by decide]
  simp only [List.map_cons, List.map_nil]
  push_cast
  rw [val_neg135, val_135, atan2_neg_zero (by norm_num : (-1 : ℝ) < 0), rad2deg_neg_half_pi,
    atan2_pos_zero (by norm_num : (0 : ℝ) < 1), rad2deg_half_pi,
    atan2_zero_neg (by norm_num : (-1 : ℝ) < 0), rad2deg_pi,
    atan2_zero_pos (by norm_num : (0 : ℝ) < 1), rad2deg_zero,
    val_neg45, val_45]

theorem initial_headings_cfgC3 : initial_headings cfgC3 = [0, 45] := by
  unfold initial_headings
  rw [show cfgC3.numberOfHeadings = 8 from rfl, ghd_eight]
  norm_num [List.filter_cons, List.filter_nil, decide_eq_true_eq,
    List.insertionSort, List.orderedInsert]

theorem start_level_cfgC3 : start_level cfgC3 = 0 := by
  unfold start_level
  rw [show compute_min_trajectory_length cfgC3 / cfgC3.gridSeparation = π / 4 from by
    unfold compute_min_trajectory_length
    rw [show cfgC3.turningRadius = 1 from rfl, show cfgC3.gridSeparation = 1 from rfl,
      show ((cfgC3.numberOfHeadings : ℝ)) = 8 from by
        rw [show cfgC3.numberOfHeadings = 8 from rfl]; norm_num]
    ring]
  rw [Int.floor_eq_zero_iff]
  constructor
  · positivity
  · have := Real.pi_lt_d2
    norm_num
    linarith

theorem max_level_cfgC3 : max_level cfgC3 = 0 := by
  unfold max_level
  rw [show cfgC3.maxLength / cfgC3.gridSeparation = 1 / 4 from by
    rw [show cfgC3.maxLength = 1 / 4 from rfl, show cfgC3.gridSeparation = 1 from rfl]
    norm_num]
  unfold pyRound
  rw [if_neg (by
    rw [show Int.fract (1 / 4 : ℝ) = 1 / 4 from Int.fract_eq_self.mpr (by norm_num)]
    norm_num)]
  rw [round_eq]
  norm_num

theorem levelsList_cfgC3 : levelsList cfgC3 = [0] := by
  unfold levelsList
  rw [start_level_cfgC3, max_level_cfgC3]
  norm_num
  decide

theorem coords_zero : get_coords_at_level (1 : ℝ) 0 = [(0, 0)] := by
  unfold get_coords_at_level
  norm_num [Int.toNat_zero, List.range_zero]

theorem search_fold_none (cfg : Config) (gen : CurveGen) (sh : ℝ) (pt : ℝ × ℝ)
    (T : List ℝ) (acc : List (ℝ × ℝ × ℝ) × List ((ℝ × ℝ) × ℝ))
    (h : ∀ e ∈ T, gen pt sh e (0.1 * cfg.gridSeparation) = none) :
    T.foldl (fun a2 e => search_step cfg gen sh a2 pt e) acc = acc := by
  induction T generalizing acc with
  | nil => rfl
  | cons a t ih =>
    rw [List.foldl_cons]
    rw [show search_step cfg gen sh acc pt a = acc from by
      unfold search_step
      rw [h a (List.mem_cons_self a t)]]
    exact ih acc fun e he => h e (List.mem_cons_of_mem a he)

theorem search_fold_split (cfg : Config) (gen : CurveGen) (sh : ℝ) (pt : ℝ × ℝ)
    (A B : List ℝ) (t : ℝ) (traj : Trajectory)
    (hA : ∀ e ∈ A, gen pt sh e (0.1 * cfg.gridSeparation) = none)
    (hB : ∀ e ∈ B, gen pt sh e (0.1 * cfg.gridSeparation) = none)
    (ht : gen pt sh t (0.1 * cfg.gridSeparation) = some traj)
    (hmin : is_minimal_path cfg traj.path [] = true) :
    (A ++ t :: B).foldl (fun a2 e => search_step cfg gen sh a2 pt e) ([], []) =
      ([(pt.1, pt.2, deg2rad t)], [(pt, t)]) := by
  rw [List.foldl_append, search_fold_none cfg gen sh pt A _ hA, List.foldl_cons]
  rw [show search_step cfg gen sh ([], []) pt t =
      ([(pt.1, pt.2, deg2rad t)], [(pt, t)]) from by
    unfold search_step
    rw [ht]
    dsimp only
    rw [if_pos hmin]
    simp]
  exact search_fold_none cfg gen sh pt B _ hB

theorem is_minimal_t0 (cfg : Config) : is_minimal_path cfg t0.path [] = true := rfl

theorem gen45_none_ne (pt : ℝ × ℝ) (e : ℝ) (he : e ≠ 45) :
    gen45 pt 0 e (0.1 * cfgC3.gridSeparation) = none := by
  unfold gen45
  rw [if_neg (by rw [show cfgC3.gridSeparation = (1 : ℝ) from rfl]; norm_num),
    if_neg (by intro hc; exact he hc.2)]

theorem gen45_none_45sh (pt : ℝ × ℝ) (e : ℝ) :
    gen45 pt 45 e (0.1 * cfgC3.gridSeparation) = none := by
  unfold gen45
  rw [if_neg (by rw [show cfgC3.gridSeparation = (1 : ℝ) from rfl]; norm_num),
    if_neg (by intro hc; norm_num at hc)]

theorem gen45_some_45 :
    gen45 (0, 0) 0 45 (0.1 * cfgC3.gridSeparation) = some t0 := by
  unfold gen45
  rw [if_neg (by rw [show cfgC3.gridSeparation = (1 : ℝ) from rfl]; norm_num),
    if_pos ⟨rfl, rfl⟩]

theorem targets_cfgC3_split :
    ∃ A B, target_headings cfgC3 0 = A ++ 45 :: B ∧
      (45 : ℝ) ∉ A ∧ (45 : ℝ) ∉ B := by
  classical
  have hbase : (get_heading_discretization cfgC3.numberOfHeadings).Nodup := by
    rw [show cfgC3.numberOfHeadings = 8 from rfl, ghd_eight]
    norm_num [List.nodup_cons]
  have hnodup : (target_headings cfgC3 0).Nodup := by
    unfold target_headings
    exact ((List.Perm.nodup_iff (List.perm_insertionSort _ _)).mpr hbase).filter _
  have hmem : (45 : ℝ) ∈ target_headings cfgC3 0 := by
    unfold target_headings
    rw [List.mem_filter]
    constructor
    · rw [List.Perm.mem_iff (List.perm_insertionSort _ _),
        show cfgC3.numberOfHeadings = 8 from rfl, ghd_eight]
      norm_num
    · norm_num
  obtain ⟨A, B, hsplit⟩ := List.append_of_mem hmem
  rw [hsplit] at hnodup
  refine ⟨A, B, hsplit, ?_, ?_⟩
  · intro hc
    exact (List.disjoint_of_nodup_append hnodup) hc (List.mem_cons_self _ _)
  · have := (List.Nodup.of_append_right hnodup)
    rw [List.nodup_cons] at this
    exact this.1

theorem search_start_cfgC3_zero : search_start cfgC3 gen45 0 = [((0, 0), 45)] := by
  unfold search_start
  rw [levelsList_cfgC3, List.foldl_cons, List.foldl_nil]
  unfold search_level
  rw [show cfgC3.gridSeparation = (1 : ℝ) from rfl, coords_zero,
    List.foldl_cons, List.foldl_nil]
  obtain ⟨A, B, hsplit, hA, hB⟩ := targets_cfgC3_split
  rw [hsplit, search_fold_split cfgC3 gen45 0 (0, 0) A B 45 t0
    (fun e he => gen45_none_ne (0, 0) e (fun hc => hA (hc ▸ he)))
    (fun e he => gen45_none_ne (0, 0) e (fun hc => hB (hc ▸ he)))
    gen45_some_45 (is_minimal_t0 cfgC3)]

theorem search_start_cfgC3_45 : search_start cfgC3 gen45 45 = [] := by
  unfold search_start
  rw [levelsList_cfgC3, List.foldl_cons, List.foldl_nil]
  unfold search_level
  rw [show cfgC3.gridSeparation = (1 : ℝ) from rfl, coords_zero,
    List.foldl_cons, List.foldl_nil]
  rw [search_fold_none cfgC3 gen45 45 (0, 0) _ _
    (fun e _ => gen45_none_45sh (0, 0) e)]

theorem sqs_cfgC3 : single_quadrant_set cfgC3 gen45 =
    [((0 : ℝ), [(((0 : ℝ), (0 : ℝ)), (45 : ℝ))])] := by
  unfold single_quadrant_set
  rw [initial_headings_cfgC3, List.foldl_cons, List.foldl_cons, List.foldl_nil,
    search_start_cfgC3_zero, search_start_cfgC3_45, List.foldl_cons, List.foldl_nil,
    List.foldl_nil]
  rfl

theorem quad_cfgC3_zero :
    ∃ qs, quad_records cfgC3 gen45 0 ((0 : ℝ), (0 : ℝ)) 45 = some qs ∧ badPrim ∈ qs := by
  unfold quad_records
  rw [show gen45 ((0 : ℝ), (0 : ℝ)) 0 45 cfgC3.gridSeparation = some t0 from by
    unfold gen45
    rw [if_pos (show cfgC3.gridSeparation = (1 : ℝ) from rfl)]]
  dsimp only
  rw [if_neg (by norm_num), if_neg (by norm_num), if_pos rfl]
  exact ⟨_, rfl, List.mem_cons_of_mem _ (List.mem_cons_self _ _)⟩

theorem quad_cfgC3_ninety :
    ∃ qs, quad_records cfgC3 gen45 90 ((0 : ℝ), (0 : ℝ)) 45 = some qs := by
  unfold quad_records
  rw [show gen45 ((0 : ℝ), (0 : ℝ)) 90 45 cfgC3.gridSeparation = some t0 from by
    unfold gen45
    rw [if_pos (show cfgC3.gridSeparation = (1 : ℝ) from rfl)]]
  exact ⟨_, rfl⟩

theorem create_cfgC3 :
    ∃ out, create_complete_minimal_spanning_set cfgC3 gen45
      [((0 : ℝ), [(((0 : ℝ), (0 : ℝ)), (45 : ℝ))])] = some out ∧ badPrim ∈ vals out := by
  obtain ⟨qs1, hqs1, hbad⟩ := quad_cfgC3_zero
  obtain ⟨qs2, hqs2⟩ := quad_cfgC3_ninety
  unfold create_complete_minimal_spanning_set
  have hE : ensureKey [((0 : ℝ), [(((0 : ℝ), (0 : ℝ)), (45 : ℝ))])] 0 =
      [((0 : ℝ), [(((0 : ℝ), (0 : ℝ)), (45 : ℝ))])] := by
    unfold ensureKey
    rw [if_pos (by simp)]
  have hL : lookupD [((0 : ℝ), [(((0 : ℝ), (0 : ℝ)), (45 : ℝ))])] 0 =
      [(((0 : ℝ), (0 : ℝ)), (45 : ℝ))] := by
    unfold lookupD
    rw [if_pos rfl]
  have hS : setKey [((0 : ℝ), [(((0 : ℝ), (0 : ℝ)), (45 : ℝ))])] 90
      [(((0 : ℝ), (0 : ℝ)), (45 : ℝ))] =
      [((0 : ℝ), [(((0 : ℝ), (0 : ℝ)), (45 : ℝ))]),
       ((90 : ℝ), [(((0 : ℝ), (0 : ℝ)), (45 : ℝ))])] := by
    unfold setKey
    rw [if_neg (by norm_num)]
    rfl
  simp only [hE, hL, List.map_cons, List.map_nil,
    show (90 : ℝ) - 45 = 45 from by norm_num, hS,
    List.foldlM_cons, List.foldlM_nil, addQuadRecords, Option.pure_def,
    Option.some_bind, Option.bind_eq_bind, hqs1, hqs2, Option.map_some']
  refine ⟨_, rfl, ?_⟩
  exact mem_vals_quadFold_mono (mem_vals_quadFold_self hbad)

theorem run_cfgC3 :
    ∃ out, runGenerator cfgC3 gen45 = some out ∧ badPrim ∈ vals out := by
  obtain ⟨out, hout, hmem⟩ := create_cfgC3
  refine ⟨out, ?_, hmem⟩
  unfold runGenerator generate_minimal_spanning_set
  rw [sqs_cfgC3, hout]
  rfl

/-- C3 (counterexample): with grid separation 1, turning radius 1, maximum
length 1/4, 8 headings and the ACKERMANN motion model, and a generator
that accepts only the start-heading-0 / end-heading-45 fine request, the
final output contains the reflected quadrant-2 record
`(start -180, end 135)` whose stored arc length was computed from the
original quadrant-1 difference `|0 - 45|`; the claimed formula
`2π·radius·|startHeading - endHeading|/360` would require `|−180 − 135|`
instead, so the claim fails on this run. -/
theorem c3_counterexample : ¬ c3Claim (runGenerator cfgC3 gen45) := by
  obtain ⟨out, hout, hmem⟩ := run_cfgC3
  intro hC
  rw [hout] at hC
  have h2 := (hC badPrim hmem).2
  simp only [badPrim, t0] at h2
  rw [show |(0 : ℝ) - 45| = 45 from by norm_num,
    show |(-180 : ℝ) - (180 - 45)| = 315 from by norm_num] at h2
  have hpi := Real.pi_pos
  nlinarith [h2]

/-- C3 (amended, witness): the quadrant-2 record of the concrete run above
satisfies the amended length consistency (its arc corresponds to the
shortest-arc distance 45 between -180 and 135). -/
theorem c3_length_consistency_amended_witness : arcConsistent badPrim := by
  obtain ⟨out, hout, hmem⟩ := run_cfgC3
  exact c3_length_consistency_amended cfgC3 gen45 badPrim (by rw [hout]; exact hmem)

theorem genNeg45_none_ne (pt : ℝ × ℝ) (e : ℝ) (he : e ≠ -45) :
    genNeg45 pt 0 e (0.1 * cfgC3.gridSeparation) = none := by
  unfold genNeg45
  rw [if_neg (by rw [show cfgC3.gridSeparation = (1 : ℝ) from rfl]; norm_num),
    if_neg (by intro hc; exact he hc.2)]

theorem genNeg45_none_45sh (pt : ℝ × ℝ) (e : ℝ) :
    genNeg45 pt 45 e (0.1 * cfgC3.gridSeparation) = none := by
  unfold genNeg45
  rw [if_neg (by rw [show cfgC3.gridSeparation = (1 : ℝ) from rfl]; norm_num),
    if_neg (by intro hc; norm_num at hc)]

theorem genNeg45_some :
    genNeg45 (0, 0) 0 (-45) (0.1 * cfgC3.gridSeparation) = some t0 := by
  unfold genNeg45
  rw [if_neg (by rw [show cfgC3.gridSeparation = (1 : ℝ) from rfl]; norm_num),
    if_pos ⟨rfl, rfl⟩]

theorem targets_cfgC3_split_neg :
    ∃ A B, target_headings cfgC3 0 = A ++ (-45) :: B ∧
      (-45 : ℝ) ∉ A ∧ (-45 : ℝ) ∉ B := by
  classical
  have hbase : (get_heading_discretization cfgC3.numberOfHeadings).Nodup := by
    rw [show cfgC3.numberOfHeadings = 8 from rfl, ghd_eight]
    norm_num [List.nodup_cons]
  have hnodup : (target_headings cfgC3 0).Nodup := by
    unfold target_headings
    exact ((List.Perm.nodup_iff (List.perm_insertionSort _ _)).mpr hbase).filter _
  have hmem : (-45 : ℝ) ∈ target_headings cfgC3 0 := by
    unfold target_headings
    rw [List.mem_filter]
    constructor
    · rw [List.Perm.mem_iff (List.perm_insertionSort _ _),
        show cfgC3.numberOfHeadings = 8 from rfl, ghd_eight]
      norm_num
    · norm_num
  obtain ⟨A, B, hsplit⟩ := List.append_of_mem hmem
  rw [hsplit] at hnodup
  refine ⟨A, B, hsplit, ?_, ?_⟩
  · intro hc
    exact (List.disjoint_of_nodup_append hnodup) hc (List.mem_cons_self _ _)
  · have := (List.Nodup.of_append_right hnodup)
    rw [List.nodup_cons] at this
    exact this.1

theorem search_start_cfgC3neg_zero :
    search_start cfgC3 genNeg45 0 = [((0, 0), -45)] := by
  unfold search_start
  rw [levelsList_cfgC3, List.foldl_cons, List.foldl_nil]
  unfold search_level
  rw [show cfgC3.gridSeparation = (1 : ℝ) from rfl, coords_zero,
    List.foldl_cons, List.foldl_nil]
  obtain ⟨A, B, hsplit, hA, hB⟩ := targets_cfgC3_split_neg
  rw [hsplit, search_fold_split cfgC3 genNeg45 0 (0, 0) A B (-45) t0
    (fun e he => genNeg45_none_ne (0, 0) e (fun hc => hA (hc ▸ he)))
    (fun e he => genNeg45_none_ne (0, 0) e (fun hc => hB (hc ▸ he)))
    genNeg45_some (is_minimal_t0 cfgC3)]

theorem search_start_cfgC3neg_45 : search_start cfgC3 genNeg45 45 = [] := by
  unfold search_start
  rw [levelsList_cfgC3, List.foldl_cons, List.foldl_nil]
  unfold search_level
  rw [show cfgC3.gridSeparation = (1 : ℝ) from rfl, coords_zero,
    List.foldl_cons, List.foldl_nil]
  rw [search_fold_none cfgC3 genNeg45 45 (0, 0) _ _
    (fun e _ => genNeg45_none_45sh (0, 0) e)]

theorem sqs_cfgC3neg : single_quadrant_set cfgC3 genNeg45 =
    [((0 : ℝ), [(((0 : ℝ), (0 : ℝ)), (-45 : ℝ))])] := by
  unfold single_quadrant_set
  rw [initial_headings_cfgC3, List.foldl_cons, List.foldl_cons, List.foldl_nil,
    search_start_cfgC3neg_zero, search_start_cfgC3neg_45, List.foldl_cons,
    List.foldl_nil, List.foldl_nil]
  rfl

theorem quad_cfgC3neg_zero :
    ∃ qs, quad_records cfgC3 genNeg45 0 ((0 : ℝ), (0 : ℝ)) (-45) = some qs ∧
      ∃ q ∈ qs, q.start_angle = -180 ∧ q.end_angle = 225 := by
  unfold quad_records
  rw [show genNeg45 ((0 : ℝ), (0 : ℝ)) 0 (-45) cfgC3.gridSeparation = some t0 from by
    unfold genNeg45
    rw [if_pos (show cfgC3.gridSeparation = (1 : ℝ) from rfl)]]
  dsimp only
  rw [if_neg (by norm_num), if_neg (by norm_num), if_pos rfl]
  exact ⟨_, rfl, _, List.mem_cons_of_mem _ (List.mem_cons_self _ _),
    rfl, show (180 : ℝ) - (-45) = 225 from by norm_num⟩

theorem quad_cfgC3neg_ninety :
    ∃ qs, quad_records cfgC3 genNeg45 90 ((0 : ℝ), (0 : ℝ)) 135 = some qs := by
  unfold quad_records
  rw [show genNeg45 ((0 : ℝ), (0 : ℝ)) 90 135 cfgC3.gridSeparation = some t0 from by
    unfold genNeg45
    rw [if_pos (show cfgC3.gridSeparation = (1 : ℝ) from rfl)]]
  exact ⟨_, rfl⟩

theorem create_cfgC3neg :
    ∃ out, create_complete_minimal_spanning_set cfgC3 genNeg45
      [((0 : ℝ), [(((0 : ℝ), (0 : ℝ)), (-45 : ℝ))])] = some out ∧
      (-180 : ℝ) ∈ keysOf out ∧ ∃ p ∈ vals out, p.end_angle = 225 := by
  obtain ⟨qs1, hqs1, q, hq, hqs, hqe⟩ := quad_cfgC3neg_zero
  obtain ⟨qs2, hqs2⟩ := quad_cfgC3neg_ninety
  unfold create_complete_minimal_spanning_set
  have hE : ensureKey [((0 : ℝ), [(((0 : ℝ), (0 : ℝ)), (-45 : ℝ))])] 0 =
      [((0 : ℝ), [(((0 : ℝ), (0 : ℝ)), (-45 : ℝ))])] := by
    unfold ensureKey
    rw [if_pos (by simp)]
  have hL : lookupD [((0 : ℝ), [(((0 : ℝ), (0 : ℝ)), (-45 : ℝ))])] 0 =
      [(((0 : ℝ), (0 : ℝ)), (-45 : ℝ))] := by
    unfold lookupD
    rw [if_pos rfl]
  have hS : setKey [((0 : ℝ), [(((0 : ℝ), (0 : ℝ)), (-45 : ℝ))])] 90
      [(((0 : ℝ), (0 : ℝ)), (135 : ℝ))] =
      [((0 : ℝ), [(((0 : ℝ), (0 : ℝ)), (-45 : ℝ))]),
       ((90 : ℝ), [(((0 : ℝ), (0 : ℝ)), (135 : ℝ))])] := by
    unfold setKey
    rw [if_neg (by norm_num)]
    rfl
  simp only [hE, hL, List.map_cons, List.map_nil,
    show (90 : ℝ) - (-45) = 135 from by norm_num, hS,
    List.foldlM_cons, List.foldlM_nil, addQuadRecords, Option.pure_def,
    Option.some_bind, Option.bind_eq_bind, hqs1, hqs2, Option.map_some']
  refine ⟨_, rfl, ?_, ?_⟩
  · rw [← hqs]
    exact mem_keysOf_quadFold_mono (mem_keysOf_quadFold_self hq)
  · exact ⟨q, mem_vals_quadFold_mono (mem_vals_quadFold_self hq), hqe⟩

theorem gen_cfgC3neg :
    ∃ out, generate_minimal_spanning_set cfgC3 genNeg45 = some out ∧
      (-180 : ℝ) ∈ keysOf out ∧ ∃ p ∈ vals out, p.end_angle = 225 := by
  obtain ⟨out, hout, h1, h2⟩ := create_cfgC3neg
  refine ⟨out, ?_, h1, h2⟩
  unfold generate_minimal_spanning_set
  rw [sqs_cfgC3neg]
  exact hout

/-- C6 (counterexample): a full pipeline run with grid separation 1,
turning radius 1, maximum length 1/4, 8 headings and a generator that
accepts exactly the fine request `(start 0, end -45)` — a pair the target
filter `abs(start_heading - x) <= 90` admits. The expander's output
contains the start-heading key `-180` (outside the claimed interval
`(-180, 180]`) and, worse, the quadrant-2 reflection of the `(0, -45)`
record carries the end heading `180 - (-45) = 225`, outside every
canonical representation of an angle, so the claim fails on this run. -/
theorem c6_counterexample :
    ¬ c6Claim (generate_minimal_spanning_set cfgC3 genNeg45) ∧
    ∃ out, generate_minimal_spanning_set cfgC3 genNeg45 = some out ∧
      (-180 : ℝ) ∈ keysOf out ∧ ∃ p ∈ vals out, p.end_angle = 225 := by
  obtain ⟨out, hout, hkey, hend⟩ := gen_cfgC3neg
  refine ⟨?_, out, hout, hkey, hend⟩
  intro hC
  rw [hout] at hC
  have hb := hC.1 (-180) (List.mem_append.mpr (Or.inl hkey))
  exact absurd hb.1 (lt_irrefl _)

/-- C6 (amended, witness): on the concrete run above the expander's
output exists and does not contain both `+180` and `-180` among its
start-heading keys. -/
theorem c6_heading_range_amended_witness :
    ∃ out, generate_minimal_spanning_set cfgC3 genNeg45 = some out ∧
      ¬ ((180 : ℝ) ∈ keysOf out ∧ (-180 : ℝ) ∈ keysOf out) := by
  obtain ⟨out, hout, _, _⟩ := gen_cfgC3neg
  exact ⟨out, hout, (c6_heading_range_amended cfgC3 genNeg45 out hout).2.2⟩

end LatticeGen
